import Mathlib

/-
Verification development for the pyhocon HOCON parsing and substitution engine
(file src/pyhocon/__init__.py). The value model and the operations of the
external module pyhocon.config_tree (ConfigTree, ConfigList, ConfigValues) are
not part of the sources, so they are modelled from the specification, as marked
in the individual doc comments. The substitution resolver, the variable lookup
with environment fallback, and the number token recognizer are translated
directly from the source.
-/

set_option autoImplicit false

namespace Pyhocon

/-
Modelled from the spec, section 3 (the module pyhocon.config_tree is not in
the sources): the recursive document representation. A Value is a scalar
(string, integer, boolean, null), a ConfigList, a ConfigTree (ordered mapping,
modelled as an association list), or a PendingConcatenation (the ConfigValues
node) holding the token run of one key. A Token of a pending node is either an
already concrete Value or a SubstitutionRef carrying the dotted path text, the
whitespace captured after the closing brace, and the source offset. -/
mutual

/-- Modelled from the spec, section 3: the recursive document value. -/
inductive Value : Type where
  | vstr (s : String)
  | vint (n : Int)
  | vbool (b : Bool)
  | vnull
  | vlist (xs : List Value)
  | vtree (entries : List (String × Value))
  | vpending (toks : List Token)

/-- Modelled from the spec, section 3: one token of a PendingConcatenation. -/
inductive Token : Type where
  | tval (v : Value)
  | tsub (varPath : String) (ws : String) (loc : Nat)

end

/-- Translated from the isinstance ConfigValues test of
ConfigParser._resolve_substitutions (line 223). -/
def Value.isPendingB : Value → Bool
  | .vpending _ => true
  | _ => false

/-- Translated from the isinstance ConfigList or ConfigTree test of
ConfigParser._resolve_variable (line 205). -/
def Value.isCompositeB : Value → Bool
  | .vlist _ => true
  | .vtree _ => true
  | _ => false

/-- Modelled from the spec, section 3: key lookup in the ordered mapping of a
ConfigTree, returning the first binding of the key. -/
def treeLookup : List (String × Value) → String → Option Value
  | [], _ => none
  | (k, v) :: rest, key => if k = key then some v else treeLookup rest key

/-- Modelled from the spec, section 3: a dotted key denotes a path and is split
at the dots. Structural recursion over the character list of the string. -/
def splitPathAux : List Char → List Char → List String
  | [], acc => [String.mk acc.reverse]
  | c :: cs, acc =>
    if c = '.' then String.mk acc.reverse :: splitPathAux cs []
    else splitPathAux cs (c :: acc)

/-- Modelled from the spec, section 3: split a dotted path string into its
segments. -/
def splitPath (s : String) : List String :=
  splitPathAux s.toList []

/-- Modelled from the spec, section 6 (config_tree.ConfigTree.get is not in the
sources): walk a segment path through nested ConfigTree levels. The walk fails
when a segment is missing or when it would descend into a value that is not a
ConfigTree, which covers descending into a still pending node. -/
def getPath : Value → List String → Option Value
  | v, [] => some v
  | .vtree t, k :: rest =>
    match treeLookup t k with
    | some v => getPath v rest
    | none => none
  | _, _ :: _ => none

/-- Modelled from the spec, section 3: replace the first binding of a key in
the ordered mapping, keeping the order. -/
def replaceKey : List (String × Value) → String → Value → List (String × Value)
  | [], _, _ => []
  | (k, v) :: rest, key, nv =>
    if k = key then (k, nv) :: rest else (k, v) :: replaceKey rest key nv

/-- Modelled from the spec, section 3 (the parent and key back reference write
of config_values.parent, line 235 of the source, lands here): overwrite the
value reached by a segment path, failing when the path does not exist. -/
def setPath : Value → List String → Value → Option Value
  | _, [], nv => some nv
  | .vtree t, k :: rest, nv =>
    match treeLookup t k with
    | some old =>
      match setPath old rest nv with
      | some newV => some (.vtree (replaceKey t k newV))
      | none => none
    | none => none
  | _, _ :: _, _ => none

/-- Modelled from pyparsing: lineno counts the newline characters before the
location, one based. -/
def lineno (loc : Nat) (s : String) : Nat :=
  ((s.toList.take loc).filter (fun c => c = '\n')).length + 1

/-- Modelled from pyparsing: the column is the distance from the last newline
before the location, one based when no newline precedes it. -/
def colOf (loc : Nat) (s : String) : Nat :=
  let before := s.toList.take loc
  match (before.reverse.findIdx? (fun c => c = '\n')) with
  | some j => j + 1
  | none => loc + 1

/-- Translated from config_tree.ConfigSubstitution together with the parent and
index back references used by the resolver (lines 227 and 231): the dotted path
text, the captured trailing whitespace, the full source string and the offset
for diagnostics, the tree path of the owning pending node and the token index
inside it. -/
structure Substitution where
  varPath : String
  ws : String
  instring : String
  loc : Nat
  path : List String
  index : Nat
deriving DecidableEq, Repr

/-- Translated from pyhocon.exceptions.ConfigSubstitutionException, kept as
structured data instead of a formatted message: a failed lookup names the path
with line and column (lines 201 to 204), an environment value of composite type
names the path, the type and the position (lines 205 to 212), a stalled working
set names every remaining path with line and column (lines 240 to 244). The
shape error is the value shape failure of the concatenation transformer,
modelled from the spec, section 4.3. The badState error marks states that the
mutable original reaches only through broken back references. -/
inductive SubError where
  | cannotResolve (varPath : String) (line col : Nat)
  | compositeEnv (varPath : String) (typeName : String) (line col : Nat)
  | cycle (entries : List (String × Nat × Nat))
  | shape
  | badState
deriving DecidableEq, Repr

/-- Diagnostic entry of one substitution, the variable with its line and
column, as formatted in lines 241 to 244 of the source. -/
def entryOf (s : Substitution) : String × Nat × Nat :=
  (s.varPath, lineno s.loc s.instring, colOf s.loc s.instring)

/-- Environment of the external variable lookup os.environ.get (line 199). -/
def Env : Type := String → Option Value

/-- Translated from ConfigParser._resolve_variable (lines 192 to 213): look the
dotted path up in the tree; on failure fall back to the environment; a missing
environment value is a hard failure naming path, line and column; an
environment value of composite type is rejected. -/
def resolveVariable (env : Env) (config : Value) (s : Substitution) : Except SubError Value :=
  match getPath config (splitPath s.varPath) with
  | some v => .ok v
  | none =>
    match env s.varPath with
    | none => .error (.cannotResolve s.varPath (lineno s.loc s.instring) (colOf s.loc s.instring))
    | some value =>
      if value.isCompositeB then
        .error (.compositeEnv s.varPath
          (match value with | .vlist _ => "ConfigList" | _ => "ConfigTree")
          (lineno s.loc s.instring) (colOf s.loc s.instring))
      else .ok value

/-- Translated from lines 229 to 231 of the source: when the resolved value is
a string and the substitution is not the last token of its pending node, the
captured whitespace is appended before the value is written into the token
slot; any other resolved value is written unchanged. -/
def formatResolved (v : Value) (ws : String) (index ntokens : Nat) : Value :=
  match v with
  | .vstr s => if index < ntokens - 1 then .vstr (s ++ ws) else .vstr s
  | _ => v

/-- Test for a substitution token, used by the transformer to decide whether
the run is fully resolved. -/
def Token.isSubTok : Token → Bool
  | .tsub _ _ _ => true
  | .tval _ => false

/-- Value carried by a concrete token; a substitution token carries none. -/
def Token.val? : Token → Option Value
  | .tval v => some v
  | .tsub _ _ _ => none

mutual

/-- Modelled from the spec, section 4.2 (config_tree merging is not in the
sources): two ConfigTree values deep merge key by key, any other combination
lets the new value win. -/
def mergeValue : Value → Value → Value
  | .vtree a, .vtree b => .vtree (mergeEntries a b)
  | _, nv => nv

/-- Modelled from the spec, section 4.2: fold the new entries into the existing
ordered mapping one by one. -/
def mergeEntries : List (String × Value) → List (String × Value) → List (String × Value)
  | a, [] => a
  | a, (k, v) :: rest => mergeEntries (putEntry a k v) rest

/-- Modelled from the spec, section 4.2: write one key into the ordered
mapping, merging recursively when the key is already bound. -/
def putEntry : List (String × Value) → String → Value → List (String × Value)
  | [], k, v => [(k, v)]
  | (k0, v0) :: rest, k, v =>
    if k0 = k then (k0, mergeValue v0 v) :: rest
    else (k0, v0) :: putEntry rest k v

end

/-- Modelled from the spec, section 4.3 (config_tree.ConfigValues.transform is
not in the sources): while any substitution token remains the node stays
pending; otherwise a single token is returned verbatim, an all string run is
concatenated, an all list run is concatenated, an all tree run is deep merged,
and any other mixture is a value shape error. -/
def transform (toks : List Token) : Except SubError Value :=
  if toks.any Token.isSubTok then .ok (.vpending toks)
  else
    match toks.filterMap Token.val? with
    | [] => .error .badState
    | [v] => .ok v
    | vs =>
      if vs.all (fun v => match v with | .vstr _ => true | _ => false) then
        .ok (.vstr (vs.foldl (fun acc v => match v with | .vstr s => acc ++ s | _ => acc) ""))
      else if vs.all (fun v => match v with | .vlist _ => true | _ => false) then
        .ok (.vlist (vs.foldl (fun acc v => match v with | .vlist xs => acc ++ xs | _ => acc) []))
      else if vs.all (fun v => match v with | .vtree _ => true | _ => false) then
        .ok (vs.foldl (fun acc v => mergeValue acc v) (.vtree []))
      else .error .shape

/-- Translated from lines 226 to 235 of the source: write the resolved value
into the token slot of the owning pending node, applying the whitespace rule,
run the transformer, and overwrite the pending node in its parent container
with the transformed result. -/
def resolveStep (config : Value) (s : Substitution) (resolved : Value) : Except SubError Value :=
  match getPath config s.path with
  | some (.vpending toks) =>
    let formatted := formatResolved resolved s.ws s.index toks.length
    let toks2 := toks.set s.index (.tval formatted)
    match transform toks2 with
    | .error e => .error e
    | .ok result =>
      match setPath config s.path result with
      | some config2 => .ok config2
      | none => .error .badState
  | _ => .error .badState

/-- Translated from the inner loop of ConfigParser._resolve_substitutions
(lines 220 to 236): one pass over the working set. A substitution whose lookup
yields a still pending value is kept for the next pass; any other lookup result
is written into place at once, so later substitutions of the same pass see the
update; lookup failures abort the pass. The returned list is the remaining
working set; it is nonempty exactly when the Python flag unresolved was set. -/
def resolvePass (env : Env) : List Substitution → Value → Except SubError (Value × List Substitution)
  | [], config => .ok (config, [])
  | s :: rest, config =>
    match resolveVariable env config s with
    | .error e => .error e
    | .ok v =>
      if v.isPendingB then
        match resolvePass env rest config with
        | .error e => .error e
        | .ok (c2, rem) => .ok (c2, s :: rem)
      else
        match resolveStep config s v with
        | .error e => .error e
        | .ok c2 => resolvePass env rest c2

/-- Translated from the outer loop of ConfigParser._resolve_substitutions
(lines 219 to 244): run passes while progress is possible, at most as many as
the fuel allows; when the fuel is spent with a nonempty working set, raise the
cycle error naming every remaining substitution with line and column. -/
def resolveLoop (env : Env) : Nat → Value → List Substitution → Except SubError Value
  | 0, _, subs => .error (.cycle (subs.map entryOf))
  | n + 1, config, subs =>
    match resolvePass env subs config with
    | .error e => .error e
    | .ok (c2, rem) =>
      if rem.isEmpty then .ok c2
      else resolveLoop env n c2 rem

/-- Translated from ConfigParser._resolve_substitutions (lines 215 to 246): an
empty substitution list returns the tree unchanged; otherwise the pass loop
runs with one unit of fuel per recorded substitution, matching the range over
the length of the substitution list. -/
def resolveSubstitutions (env : Env) (config : Value) (subs : List Substitution) : Except SubError Value :=
  if subs.length > 0 then resolveLoop env subs.length config subs
  else .ok config

mutual

/-- Terminal state predicate of the spec, section 3: the value contains no
PendingConcatenation node anywhere, hence also no SubstitutionRef. -/
def Value.noPending : Value → Bool
  | .vstr _ => true
  | .vint _ => true
  | .vbool _ => true
  | .vnull => true
  | .vlist xs => listNoPending xs
  | .vtree t => entriesNoPending t
  | .vpending _ => false

/-- Elementwise noPending over a list value. -/
def listNoPending : List Value → Bool
  | [] => true
  | v :: r => v.noPending && listNoPending r

/-- Elementwise noPending over the entries of a tree value. -/
def entriesNoPending : List (String × Value) → Bool
  | [] => true
  | (_, v) :: r => v.noPending && entriesNoPending r

end

/-- Key list of a tree level is free of duplicates; ConfigTree is a dict in the
original, so a key is bound at most once per level. -/
def nodupKeysB : List (String × Value) → Bool
  | [] => true
  | (k, _) :: r => !(r.any (fun e => e.1 = k)) && nodupKeysB r

mutual

/-- Structural well formedness of the states the parser hands to the resolver:
keys of every tree level are distinct, list elements are fully concrete
(substitutions cannot occur inside list literals in the grammar), and pending
nodes appear only as direct tree values, their concrete tokens being fully
concrete themselves. -/
def Value.goodValue : Value → Bool
  | .vstr _ => true
  | .vint _ => true
  | .vbool _ => true
  | .vnull => true
  | .vlist xs => listNoPending xs
  | .vtree t => nodupKeysB t && entriesGood t
  | .vpending toks => toksGood toks

/-- Entrywise goodValue over the entries of a tree value. -/
def entriesGood : List (String × Value) → Bool
  | [] => true
  | (_, v) :: r => v.goodValue && entriesGood r

/-- Tokens of a pending node: concrete tokens are concrete clean values. -/
def toksGood : List Token → Bool
  | [] => true
  | .tval v :: r => (v.noPending && v.goodValue) && toksGood r
  | .tsub _ _ _ :: r => toksGood r

end

mutual

/-- All pending nodes of a value reachable along tree keys, with the token
list of each, used as the computable form of the coverage check. -/
def Value.pendingPaths : Value → List (List String × List Token)
  | .vpending toks => [([], toks)]
  | .vtree t => entriesPendingPaths t
  | _ => []

/-- Pending paths of all entries of a tree level, each prefixed by its key. -/
def entriesPendingPaths : List (String × Value) → List (List String × List Token)
  | [] => []
  | (k, v) :: r => (v.pendingPaths.map (fun pr => (k :: pr.1, pr.2))) ++ entriesPendingPaths r

end

/-- Computable coverage check: every substitution token of every pending node
is covered by a recorded substitution with the matching path and index, and
every pending node holds at least one substitution token. -/
def covB (c : Value) (subs : List Substitution) : Bool :=
  c.pendingPaths.all (fun pr =>
    pr.2.any Token.isSubTok &&
    (List.range pr.2.length).all (fun i =>
      match pr.2[i]? with
      | some (.tsub _ _ _) => subs.any (fun s => s.path = pr.1 && s.index = i)
      | _ => true))

/-- Computable lookup cleanliness check: the tree lookup of every recorded
substitution either fails, or yields a pending node, or yields a fully
concrete value; the state has no lookup capturing a partially resolved
subtree, which the mutable original shares by reference and this functional
model would copy. -/
def w3B (c : Value) (subs : List Substitution) : Bool :=
  subs.all (fun s =>
    match getPath c (splitPath s.varPath) with
    | some v => v.isPendingB || v.noPending
    | none => true)

/-- Environment values are concrete and clean; os.environ yields strings. -/
def EnvClean (env : Env) : Prop :=
  ∀ k v, env k = some v → v.noPending = true ∧ v.goodValue = true

/-- Coverage invariant of the resolver state, stated over lookups: every
pending node reachable along tree keys still holds at least one substitution
token, and each of its substitution tokens is covered by a working set entry
with the matching owner path and token index. -/
def Covered (c : Value) (subs : List Substitution) : Prop :=
  ∀ p toks, getPath c p = some (.vpending toks) →
    toks.any Token.isSubTok = true ∧
    ∀ i vp w l, toks[i]? = some (.tsub vp w l) →
      ∃ s, s ∈ subs ∧ s.path = p ∧ s.index = i

/-- Lookup cleanliness invariant: the tree lookup of every working set entry
yields nothing, a pending node, or a fully concrete value. The mutable
original shares a partially resolved subtree by reference, so a lookup there
never observes a stale copy; this is the fragment in which the functional
model coincides with it. -/
def LookupsClean (c : Value) (subs : List Substitution) : Prop :=
  ∀ s, s ∈ subs → ∀ v, getPath c (splitPath s.varPath) = some v →
    v.isPendingB = true ∨ v.noPending = true

/-- Full resolver invariant carried across passes. -/
def Inv (env : Env) (c : Value) (subs : List Substitution) : Prop :=
  c.goodValue = true ∧ Covered c subs ∧ LookupsClean c subs ∧ EnvClean env

/-- Empty external environment. -/
def envNone : Env := fun _ => none

/-- Source text of the forward reference document with the substitution first. -/
def instrAB : String := "{a: ${b}, b: 5}"

/-- Recorded substitution of the forward reference document. -/
def subAB : Substitution :=
  { varPath := "b", ws := "", instring := instrAB, loc := 4, path := ["a"], index := 0 }

/-- Raw tree of the forward reference document with the substitution first. -/
def docAB : Value := .vtree [("a", .vpending [.tsub "b" "" 4]), ("b", .vint 5)]

/-- Source text of the same document with the concrete key first. -/
def instrBA : String := "{b: 5, a: ${b}}"

/-- Recorded substitution of the reordered document. -/
def subBA : Substitution :=
  { varPath := "b", ws := "", instring := instrBA, loc := 10, path := ["a"], index := 0 }

/-- Raw tree of the reordered document. -/
def docBA : Value := .vtree [("b", .vint 5), ("a", .vpending [.tsub "b" "" 10])]

/-- Source text of the two step forward chain. -/
def instrChain : String := "{a: ${b}, b: ${c}, c: 5}"

/-- First recorded substitution of the chain document. -/
def subChainA : Substitution :=
  { varPath := "b", ws := "", instring := instrChain, loc := 4, path := ["a"], index := 0 }

/-- Second recorded substitution of the chain document. -/
def subChainB : Substitution :=
  { varPath := "c", ws := "", instring := instrChain, loc := 13, path := ["b"], index := 0 }

/-- Raw tree of the chain document; resolving the first reference needs a
second pass because its target is itself pending during the first pass. -/
def docChain : Value :=
  .vtree [("a", .vpending [.tsub "b" "" 4]), ("b", .vpending [.tsub "c" "" 13]), ("c", .vint 5)]

/-- Source text of the direct cycle document. -/
def instrCyc : String := "{a: ${b}, b: ${a}}"

/-- First recorded substitution of the cycle document. -/
def subCycA : Substitution :=
  { varPath := "b", ws := "", instring := instrCyc, loc := 4, path := ["a"], index := 0 }

/-- Second recorded substitution of the cycle document. -/
def subCycB : Substitution :=
  { varPath := "a", ws := "", instring := instrCyc, loc := 13, path := ["b"], index := 0 }

/-- Raw tree of the direct cycle document. -/
def docCyc : Value := .vtree [("a", .vpending [.tsub "b" "" 4]), ("b", .vpending [.tsub "a" "" 13])]

/-- Source text of the mixed document with a cycle and a resolvable reference. -/
def instrMix : String := "{a: ${b}, b: ${a}, c: ${d}, d: 5}"

/-- Cyclic substitution of the mixed document. -/
def subMixA : Substitution :=
  { varPath := "b", ws := "", instring := instrMix, loc := 4, path := ["a"], index := 0 }

/-- Cyclic substitution of the mixed document. -/
def subMixB : Substitution :=
  { varPath := "a", ws := "", instring := instrMix, loc := 13, path := ["b"], index := 0 }

/-- Resolvable substitution of the mixed document. -/
def subMixC : Substitution :=
  { varPath := "d", ws := "", instring := instrMix, loc := 22, path := ["c"], index := 0 }

/-- Raw tree of the mixed document. -/
def docMix : Value :=
  .vtree [("a", .vpending [.tsub "b" "" 4]), ("b", .vpending [.tsub "a" "" 13]),
    ("c", .vpending [.tsub "d" "" 22]), ("d", .vint 5)]

/-- Mixed document after the first pass: the resolvable reference is written,
the cyclic pair is untouched. -/
def docMixAfter : Value :=
  .vtree [("a", .vpending [.tsub "b" "" 4]), ("b", .vpending [.tsub "a" "" 13]),
    ("c", .vint 5), ("d", .vint 5)]

/-- Source text of the document whose path is absent from tree and environment. -/
def instrMissing : String := "{a: ${nope}}"

/-- Recorded substitution of the absent path document. -/
def subMissing : Substitution :=
  { varPath := "nope", ws := "", instring := instrMissing, loc := 4, path := ["a"], index := 0 }

/-- Raw tree of the absent path document. -/
def docMissing : Value := .vtree [("a", .vpending [.tsub "nope" "" 4])]

/-- Source text of the concatenation document with no space captured; the
quoted second token carries the space itself. -/
def instrW0 : String := String.mk ['{', 'n', 'a', 'm', 'e', ':', ' ', '"', 'x', '"', ',', ' ', 'f', 'u', 'l', 'l', ':', ' ', '$', '{', 'n', 'a', 'm', 'e', '}', '"', ' ', 's', 'u', 'f', 'f', 'i', 'x', '"', '}']

/-- Recorded substitution of the zero space concatenation document. -/
def subW0 : Substitution :=
  { varPath := "name", ws := "", instring := instrW0, loc := 18, path := ["full"], index := 0 }

/-- Raw tree of the zero space concatenation document. -/
def docW0 : Value :=
  .vtree [("name", .vstr "x"), ("full", .vpending [.tsub "name" "" 18, .tval (.vstr " suffix")])]

/-- Source text of the concatenation document with one captured space. -/
def instrW1 : String := String.mk ['{', 'n', 'a', 'm', 'e', ':', ' ', '"', 'x', '"', ',', ' ', 'f', 'u', 'l', 'l', ':', ' ', '$', '{', 'n', 'a', 'm', 'e', '}', ' ', '"', 's', 'u', 'f', 'f', 'i', 'x', '"', '}']

/-- Recorded substitution of the one space concatenation document. -/
def subW1 : Substitution :=
  { varPath := "name", ws := " ", instring := instrW1, loc := 18, path := ["full"], index := 0 }

/-- Raw tree of the one space concatenation document. -/
def docW1 : Value :=
  .vtree [("name", .vstr "x"), ("full", .vpending [.tsub "name" " " 18, .tval (.vstr "suffix")])]

/-- Source text of the concatenation document with three captured spaces. -/
def instrW3 : String := String.mk ['{', 'n', 'a', 'm', 'e', ':', ' ', '"', 'x', '"', ',', ' ', 'f', 'u', 'l', 'l', ':', ' ', '$', '{', 'n', 'a', 'm', 'e', '}', ' ', ' ', ' ', '"', 's', 'u', 'f', 'f', 'i', 'x', '"', '}']

/-- Recorded substitution of the three space concatenation document. -/
def subW3 : Substitution :=
  { varPath := "name", ws := "   ", instring := instrW3, loc := 18, path := ["full"], index := 0 }

/-- Raw tree of the three space concatenation document. -/
def docW3 : Value :=
  .vtree [("name", .vstr "x"), ("full", .vpending [.tsub "name" "   " 18, .tval (.vstr "suffix")])]

/-- Source text of the concatenation document whose substitution is the last
token, with one space captured after it before the closing brace. -/
def instrWLast : String := String.mk ['{', 'n', 'a', 'm', 'e', ':', ' ', '"', 'x', '"', ',', ' ', 'f', 'u', 'l', 'l', ':', ' ', '"', 'p', 'r', 'e', ' ', '"', '$', '{', 'n', 'a', 'm', 'e', '}', ' ', '}']

/-- Recorded substitution sitting in the last token slot. -/
def subWLast : Substitution :=
  { varPath := "name", ws := " ", instring := instrWLast, loc := 24, path := ["full"], index := 1 }

/-- Raw tree of the last token document. -/
def docWLast : Value :=
  .vtree [("name", .vstr "x"), ("full", .vpending [.tval (.vstr "pre "), .tsub "name" " " 24])]

/-- Source text of the document concatenating a list valued substitution with
a list literal. -/
def instrC6 : String := "{x: [1], y: ${x} [2]}"

/-- Recorded substitution of the list concatenation document. -/
def subC6 : Substitution :=
  { varPath := "x", ws := " ", instring := instrC6, loc := 12, path := ["y"], index := 0 }

/-- Raw tree of the list concatenation document: the substitution resolves to
a composite value in a two token concatenation. -/
def docC6 : Value :=
  .vtree [("x", .vlist [.vint 1]), ("y", .vpending [.tsub "x" " " 12, .tval (.vlist [.vint 2])])]

/-- Source text of the document concatenating a tree valued substitution with
a string token. -/
def instrC6m : String := String.mk ['{', 'x', ':', ' ', '{', 'k', ':', ' ', '1', '}', ',', ' ', 'y', ':', ' ', '$', '{', 'x', '}', ' ', '"', 's', '"', '}']

/-- Recorded substitution of the mixed kind concatenation document. -/
def subC6m : Substitution :=
  { varPath := "x", ws := " ", instring := instrC6m, loc := 15, path := ["y"], index := 0 }

/-- Raw tree of the mixed kind concatenation document. -/
def docC6m : Value :=
  .vtree [("x", .vtree [("k", .vint 1)]), ("y", .vpending [.tsub "x" " " 15, .tval (.vstr "s")])]

/-- Environment binding one composite value, exercising the composite check of
the environment fallback branch. -/
def envList : Env := fun k => if k = "FOO" then some (.vlist []) else none

/-- Substitution whose path exists neither in the tree nor as a concrete
environment string. -/
def subFOO : Substitution :=
  { varPath := "FOO", ws := "", instring := "{a: ${FOO}}", loc := 4, path := ["a"], index := 0 }

/-- Raw tree owning the environment substitution. -/
def docFOO : Value := .vtree [("a", .vpending [.tsub "FOO" "" 4])]

/-- Source text of the order dependence document: one reference reads through
a key that is itself still pending. -/
def instrC7 : String := "{a: ${b.c}, b: ${d}, d: {c: 5}}"

/-- Substitution reading the path b.c, which crosses the pending value of b. -/
def subC7a : Substitution :=
  { varPath := "b.c", ws := "", instring := instrC7, loc := 4, path := ["a"], index := 0 }

/-- Substitution resolving b to the tree stored at d. -/
def subC7d : Substitution :=
  { varPath := "d", ws := "", instring := instrC7, loc := 15, path := ["b"], index := 0 }

/-- Raw tree of the order dependence document. -/
def docC7 : Value :=
  .vtree [("a", .vpending [.tsub "b.c" "" 4]), ("b", .vpending [.tsub "d" "" 15]),
    ("d", .vtree [("c", .vint 5)])]

/-- Length of the digit prefix of a character list. -/
def digitPrefixLen : List Char → Nat
  | c :: r => if c.isDigit then digitPrefixLen r + 1 else 0
  | [] => 0

/-- Translated from the greedy one or more digits piece of the number regex
(line 150): the remainders after consuming at least one digit, longest match
first, which is the backtracking order of the regex engine. -/
def plusDigitsRests (s : List Char) : List (List Char) :=
  (List.range (digitPrefixLen s)).map (fun i => s.drop (digitPrefixLen s - i))

/-- Translated from the greedy zero or more digits piece of the number regex:
the remainders after consuming any number of digits, longest match first. -/
def starDigitsRests (s : List Char) : List (List Char) :=
  (List.range (digitPrefixLen s + 1)).map (fun i => s.drop (digitPrefixLen s - i))

/-- Translated from the optional sign of the number regex, greedy: with a
sign present the engine first tries consuming it. -/
def signRests : List Char → List (List Char)
  | c :: r => if c = '+' ∨ c = '-' then [r, c :: r] else [c :: r]
  | [] => [[]]

/-- Translated from the optional fraction group of the number regex, greedy:
a dot followed by one or more digits, or nothing. -/
def fracRests (s : List Char) : List (List Char) :=
  (match s with
   | c :: r => if c = '.' then plusDigitsRests r else []
   | [] => []) ++ [s]

/-- Translated from the optional exponent group of the number regex, greedy:
an exponent letter followed by one or more digits, or nothing. -/
def expRests (s : List Char) : List (List Char) :=
  (match s with
   | c :: r => if c = 'e' ∨ c = 'E' then plusDigitsRests r else []
   | [] => []) ++ [s]

/-- Translated from the mantissa alternation of the number regex: digits dot
digits, with the integer part possibly empty, or digits with an optional
fraction; the first alternative is tried first. -/
def mantissaRests (s : List Char) : List (List Char) :=
  ((starDigitsRests s).flatMap (fun r =>
    match r with
    | c :: r2 => if c = '.' then plusDigitsRests r2 else []
    | [] => [])) ++
  ((plusDigitsRests s).flatMap fracRests)

/-- Translated from the lookahead of the number regex (line 150): optional
spaces and tabs followed by one of the delimiter characters or a line comment
start. The space run is taken greedily, which is faithful because a space is
itself never a delimiter. -/
def delimLookB (s : List Char) : Bool :=
  match s.dropWhile (fun c => c = ' ' ∨ c = '\t') with
  | '/' :: '/' :: _ => true
  | c :: _ => c = '$' ∨ c = '}' ∨ c = ']' ∨ c = ',' ∨ c = '#' ∨ c = '\n' ∨ c = '\r'
  | [] => false

/-- Translated from the number regex of number_expr (line 150): all
remainders of a successful match at the start of the input, in backtracking
order, each one having passed the delimiter lookahead. -/
def numberRests (s : List Char) : List (List Char) :=
  (((signRests s).flatMap mantissaRests).flatMap expRests).filter delimLookB

/-- Number token matched at the start of the string, when any: the text the
preferred match consumed. -/
def numberToken (s : String) : Option String :=
  match numberRests s.toList with
  | r :: _ => some (String.mk (s.toList.take (s.toList.length - r.length)))
  | [] => none

/-- Translated from the repetition unit of the unquoted string regex
(line 162): a backslash line continuation, or any single character outside
the delimiter class, the continuation alternative first. -/
def unquotUnitRests (s : List Char) : List (List Char) :=
  (match s with
   | '\\' :: r =>
     (match r.dropWhile (fun c => c = ' ' ∨ c = '\t') with
      | c :: r3 => if c = '\r' ∨ c = '\n' then [r3] else []
      | [] => [])
   | _ => []) ++
  (match s with
   | c :: r =>
     if c = '[' ∨ c = '{' ∨ c = '\n' ∨ c = ']' ∨ c = '}' ∨ c = '#' ∨ c = ',' ∨ c = '=' ∨ c = '$'
     then [] else [r]
   | [] => [])

/-- Translated from the lookahead of the unquoted string regex (line 162): a
substitution start, or optional spaces and tabs followed by a comment start
or a closing delimiter. -/
def unquotLookB (s : List Char) : Bool :=
  match s with
  | '$' :: _ => true
  | _ =>
    match s.dropWhile (fun c => c = ' ' ∨ c = '\t') with
    | '/' :: '/' :: _ => true
    | c :: _ => c = '}' ∨ c = ']' ∨ c = ',' ∨ c = '#' ∨ c = '\n' ∨ c = '\r'
    | [] => false

/-- First success of a candidate list in backtracking order. -/
def firstSome {α β : Type} : List α → (α → Option β) → Option β
  | [], _ => none
  | a :: as, f =>
    match f a with
    | some b => some b
    | none => firstSome as f

/-- Translated from the lazy repetition of the unquoted string regex: after
each unit the engine first tries to stop, checking the lookahead, and only on
failure consumes another unit; the fuel is the input length, enough because
every unit consumes at least one character. -/
def unquotRest (fuel : Nat) (s : List Char) : Option (List Char) :=
  match fuel with
  | 0 => none
  | fuel + 1 =>
    firstSome (unquotUnitRests s) (fun r => if unquotLookB r then some r else unquotRest fuel r)

/-- Unquoted string token matched at the start, with the consumed text and
the remainder. -/
def unquotedToken (s : String) : Option (String × String) :=
  match unquotRest s.toList.length s.toList with
  | some r => some (String.mk (s.toList.take (s.toList.length - r.length)), String.mk r)
  | none => none

/-- Errors of the variable lookup are never the cycle error: they are the
missing path failure or the composite environment value failure. -/
theorem resolveVariable_no_cycle (env : Env) (c : Value) (s : Substitution) (e : SubError)
    (h : resolveVariable env c s = .error e) : ∀ es, e ≠ .cycle es := by
  intro es
  unfold resolveVariable at h
  split at h
  · exact absurd h (by simp)
  · split at h
    · simp only [Except.error.injEq] at h
      subst h
      simp
    · split at h
      · simp only [Except.error.injEq] at h
        subst h
        simp
      · exact absurd h (by simp)

/-- Errors of the transformer are never the cycle error. -/
theorem transform_no_cycle (toks : List Token) (e : SubError)
    (h : transform toks = .error e) : ∀ es, e ≠ .cycle es := by
  intro es
  unfold transform at h
  split at h
  · exact absurd h (by simp)
  · split at h
    · simp only [Except.error.injEq] at h
      subst h
      simp
    · exact absurd h (by simp)
    · split at h
      · exact absurd h (by simp)
      · split at h
        · exact absurd h (by simp)
        · split at h
          · exact absurd h (by simp)
          · simp only [Except.error.injEq] at h
            subst h
            simp

/-- Errors of the write back step are never the cycle error. -/
theorem resolveStep_no_cycle (c : Value) (s : Substitution) (v : Value) (e : SubError)
    (h : resolveStep c s v = .error e) : ∀ es, e ≠ .cycle es := by
  intro es
  unfold resolveStep at h
  split at h
  · rename_i toks heq
    dsimp only at h
    cases ht : transform (toks.set s.index (Token.tval (formatResolved v s.ws s.index toks.length))) with
    | error e2 =>
      rw [ht] at h
      simp only [Except.error.injEq] at h
      subst h
      exact transform_no_cycle _ _ ht es
    | ok result =>
      rw [ht] at h
      dsimp only at h
      cases hs : setPath c s.path result with
      | some c2 => rw [hs] at h; exact absurd h (by simp)
      | none =>
        rw [hs] at h
        simp only [Except.error.injEq] at h
        subst h
        simp
  · simp only [Except.error.injEq] at h
    subst h
    simp

/-- Errors raised inside a pass are never the cycle error: the cycle error is
raised only after the pass budget is spent. -/
theorem resolvePass_no_cycle (env : Env) (subs : List Substitution) (c : Value) (e : SubError)
    (h : resolvePass env subs c = .error e) : ∀ es, e ≠ .cycle es := by
  induction subs generalizing c with
  | nil => simp [resolvePass] at h
  | cons s rest ih =>
    simp only [resolvePass] at h
    split at h
    · simp only [Except.error.injEq] at h
      subst h
      exact resolveVariable_no_cycle env c s _ (by assumption)
    · split at h
      · split at h
        · simp only [Except.error.injEq] at h
          subst h
          exact ih _ (by assumption)
        · exact absurd h (by simp)
      · split at h
        · simp only [Except.error.injEq] at h
          subst h
          exact resolveStep_no_cycle _ _ _ _ (by assumption)
        · exact ih _ h

/-- Shape of every cycle failure of the pass loop: its entries are exactly the
substitutions of a nonempty remaining working set, each rendered as path with
line and column. -/
theorem resolveLoop_cycle_shape (n : Nat) (env : Env) (c : Value) (subs : List Substitution)
    (e : List (String × Nat × Nat))
    (h : resolveLoop env (n + 1) c subs = .error (.cycle e)) :
    ∃ rem : List Substitution, rem ≠ [] ∧ e = rem.map entryOf := by
  induction n generalizing c subs with
  | zero =>
    simp only [resolveLoop] at h
    cases hp : resolvePass env subs c with
    | error e2 =>
      rw [hp] at h
      simp only [Except.error.injEq] at h
      exact absurd rfl (h ▸ resolvePass_no_cycle env subs c e2 hp e)
    | ok pr =>
      obtain ⟨c2, rem⟩ := pr
      rw [hp] at h
      dsimp only at h
      by_cases hre : rem.isEmpty
      · rw [if_pos hre] at h
        exact absurd h (by simp)
      · rw [if_neg hre] at h
        simp only [resolveLoop, Except.error.injEq, SubError.cycle.injEq] at h
        exact ⟨rem, by simpa [List.isEmpty_iff] using hre, h.symm⟩
  | succ n ih =>
    simp only [resolveLoop] at h
    cases hp : resolvePass env subs c with
    | error e2 =>
      rw [hp] at h
      simp only [Except.error.injEq] at h
      exact absurd rfl (h ▸ resolvePass_no_cycle env subs c e2 hp e)
    | ok pr =>
      obtain ⟨c2, rem⟩ := pr
      rw [hp] at h
      dsimp only at h
      by_cases hre : rem.isEmpty
      · rw [if_pos hre] at h
        exact absurd h (by simp)
      · rw [if_neg hre] at h
        exact ih _ _ h

/-- Path lookups decompose along concatenation of segment lists. -/
theorem getPath_append (p q : List String) (c : Value) :
    getPath c (p ++ q) = (getPath c p).bind (fun w => getPath w q) := by
  induction p generalizing c with
  | nil => simp [getPath]
  | cons k r ih =>
    cases c with
    | vtree t =>
      simp only [List.cons_append, getPath]
      cases treeLookup t k with
      | some v => exact ih v
      | none => rfl
    | vstr s => rfl
    | vint n => rfl
    | vbool b => rfl
    | vnull => rfl
    | vlist xs => rfl
    | vpending toks => rfl

/-- Replacing a bound key makes its first binding the new value. -/
theorem treeLookup_replaceKey_self (t : List (String × Value)) (k : String) (old nv : Value)
    (h : treeLookup t k = some old) : treeLookup (replaceKey t k nv) k = some nv := by
  induction t with
  | nil => simp [treeLookup] at h
  | cons e rest ih =>
    obtain ⟨k0, v0⟩ := e
    by_cases hk : k0 = k
    · simp [treeLookup, replaceKey, hk]
    · simp only [treeLookup, replaceKey, if_neg hk] at h ⊢
      exact ih h

/-- Replacing one key leaves the lookup of every other key unchanged. -/
theorem treeLookup_replaceKey_ne (t : List (String × Value)) (k k2 : String) (nv : Value)
    (h : k2 ≠ k) : treeLookup (replaceKey t k nv) k2 = treeLookup t k2 := by
  induction t with
  | nil => rfl
  | cons e rest ih =>
    obtain ⟨k0, v0⟩ := e
    by_cases hk : k0 = k
    · subst hk
      simp only [replaceKey, if_pos rfl, treeLookup]
      rw [if_neg (fun he => h he.symm), if_neg (fun he => h he.symm)]
    · simp only [replaceKey, if_neg hk, treeLookup]
      by_cases hk2 : k0 = k2
      · rw [if_pos hk2, if_pos hk2]
      · rw [if_neg hk2, if_neg hk2]
        exact ih

/-- A successful overwrite is observable at the overwritten path. -/
theorem getPath_setPath_self (p : List String) (c c2 v : Value)
    (h : setPath c p v = some c2) : getPath c2 p = some v := by
  induction p generalizing c c2 with
  | nil =>
    simp only [setPath, Option.some.injEq] at h
    rw [← h]
    simp [getPath]
  | cons k r ih =>
    cases c with
    | vtree t =>
      simp only [setPath] at h
      cases hl : treeLookup t k with
      | none => rw [hl] at h; exact absurd h (by simp)
      | some old =>
        rw [hl] at h
        dsimp only at h
        cases hs : setPath old r v with
        | none => rw [hs] at h; exact absurd h (by simp)
        | some newV =>
          rw [hs] at h
          simp only [Option.some.injEq] at h
          rw [← h]
          simp only [getPath, treeLookup_replaceKey_self t k old newV hl]
          exact ih old newV hs
    | vstr s => exact absurd h (by simp [setPath])
    | vint n => exact absurd h (by simp [setPath])
    | vbool b => exact absurd h (by simp [setPath])
    | vnull => exact absurd h (by simp [setPath])
    | vlist xs => exact absurd h (by simp [setPath])
    | vpending toks => exact absurd h (by simp [setPath])

/-- An overwrite is invisible at every path that neither extends nor is
extended by the overwritten one. -/
theorem getPath_setPath_indep (p2 : List String) (p : List String) (c c2 v : Value)
    (h : setPath c p v = some c2) (h1 : ¬ p <+: p2) (h2 : ¬ p2 <+: p) :
    getPath c2 p2 = getPath c p2 := by
  induction p2 generalizing p c c2 with
  | nil => exact absurd (List.nil_prefix) h2
  | cons k2 r2 ih =>
    cases p with
    | nil => exact absurd (List.nil_prefix) h1
    | cons k r =>
      cases c with
      | vtree t =>
        simp only [setPath] at h
        cases hl : treeLookup t k with
        | none => rw [hl] at h; exact absurd h (by simp)
        | some old =>
          rw [hl] at h
          dsimp only at h
          cases hs : setPath old r v with
          | none => rw [hs] at h; exact absurd h (by simp)
          | some newV =>
            rw [hs] at h
            simp only [Option.some.injEq] at h
            rw [← h]
            by_cases hk : k2 = k
            · subst hk
              have hr1 : ¬ r <+: r2 := fun hp => h1 (by simpa [List.cons_prefix_cons] using hp)
              have hr2 : ¬ r2 <+: r := fun hp => h2 (by simpa [List.cons_prefix_cons] using hp)
              simp only [getPath, treeLookup_replaceKey_self t k2 old newV hl, hl]
              exact ih r old newV hs hr1 hr2
            · simp only [getPath, treeLookup_replaceKey_ne t k k2 newV hk]
      | vstr s => exact absurd h (by simp [setPath])
      | vint n => exact absurd h (by simp [setPath])
      | vbool b => exact absurd h (by simp [setPath])
      | vnull => exact absurd h (by simp [setPath])
      | vlist xs => exact absurd h (by simp [setPath])
      | vpending toks => exact absurd h (by simp [setPath])

/-- Every strict ancestor of an overwritten path existed before the overwrite,
and after it the ancestor holds the correspondingly overwritten old value. -/
theorem getPath_setPath_above (p1 : List String) (q : List String) (c c2 v w : Value)
    (h : setPath c (p1 ++ q) v = some c2) (hw : getPath c p1 = some w) :
    ∃ w2, setPath w q v = some w2 ∧ getPath c2 p1 = some w2 := by
  induction p1 generalizing c c2 with
  | nil =>
    simp only [getPath, Option.some.injEq] at hw
    subst hw
    exact ⟨c2, by simpa using h, by simp [getPath]⟩
  | cons k r ih =>
    cases c with
    | vtree t =>
      simp only [List.cons_append, setPath] at h
      cases hl : treeLookup t k with
      | none => rw [hl] at h; exact absurd h (by simp)
      | some old =>
        rw [hl] at h
        dsimp only at h
        simp only [List.append_eq] at h
        cases hs : setPath old (r ++ q) v with
        | none => rw [hs] at h; exact absurd h (by simp)
        | some newV =>
          rw [hs] at h
          simp only [Option.some.injEq] at h
          simp only [getPath, hl] at hw
          obtain ⟨w2, hset, hget⟩ := ih old newV hs hw
          refine ⟨w2, hset, ?_⟩
          rw [← h]
          simp only [getPath, treeLookup_replaceKey_self t k old newV hl]
          exact hget
    | vstr s => exact absurd h (by simp [setPath])
    | vint n => exact absurd h (by simp [setPath])
    | vbool b => exact absurd h (by simp [setPath])
    | vnull => exact absurd h (by simp [setPath])
    | vlist xs => exact absurd h (by simp [setPath])
    | vpending toks => exact absurd h (by simp [setPath])

/-- A nonempty overwrite inside a value always produces a tree node. -/
theorem setPath_cons_vtree (w w2 v : Value) (k : String) (r : List String)
    (h : setPath w (k :: r) v = some w2) : ∃ t2, w2 = .vtree t2 := by
  cases w with
  | vtree t =>
    simp only [setPath] at h
    cases hl : treeLookup t k with
    | none => rw [hl] at h; exact absurd h (by simp)
    | some old =>
      rw [hl] at h
      dsimp only at h
      cases hs : setPath old r v with
      | none => rw [hs] at h; exact absurd h (by simp)
      | some newV =>
        rw [hs] at h
        simp only [Option.some.injEq] at h
        exact ⟨replaceKey t k newV, h.symm⟩
  | vstr s => exact absurd h (by simp [setPath])
  | vint n => exact absurd h (by simp [setPath])
  | vbool b => exact absurd h (by simp [setPath])
  | vnull => exact absurd h (by simp [setPath])
  | vlist xs => exact absurd h (by simp [setPath])
  | vpending toks => exact absurd h (by simp [setPath])

/-- Values bound in a fully concrete tree level are fully concrete. -/
theorem entriesNoPending_treeLookup (t : List (String × Value)) (k : String) (v : Value)
    (ht : entriesNoPending t = true) (h : treeLookup t k = some v) : v.noPending = true := by
  induction t with
  | nil => simp [treeLookup] at h
  | cons e rest ih =>
    obtain ⟨k0, v0⟩ := e
    simp only [entriesNoPending, Bool.and_eq_true] at ht
    simp only [treeLookup] at h
    by_cases hk : k0 = k
    · rw [if_pos hk] at h
      simp only [Option.some.injEq] at h
      subst h
      exact ht.1
    · rw [if_neg hk] at h
      exact ih ht.2 h

/-- Every value reachable inside a fully concrete value is fully concrete. -/
theorem noPending_getPath (p : List String) (c v : Value)
    (hc : c.noPending = true) (h : getPath c p = some v) : v.noPending = true := by
  induction p generalizing c with
  | nil =>
    simp only [getPath, Option.some.injEq] at h
    subst h
    exact hc
  | cons k r ih =>
    cases c with
    | vtree t =>
      simp only [getPath] at h
      cases hl : treeLookup t k with
      | none => rw [hl] at h; exact absurd h (by simp)
      | some w =>
        rw [hl] at h
        have hw : w.noPending = true :=
          entriesNoPending_treeLookup t k w (by simpa [Value.noPending] using hc) hl
        exact ih w hw h
    | vstr s => simp [getPath] at h
    | vint n => simp [getPath] at h
    | vbool b => simp [getPath] at h
    | vnull => simp [getPath] at h
    | vlist xs => simp [getPath] at h
    | vpending toks => simp [getPath] at h

/-- A value with a reachable pending node is not fully concrete. -/
theorem getPath_pending_not_noPending (p : List String) (c : Value) (toks : List Token)
    (h : getPath c p = some (.vpending toks)) : c.noPending = false := by
  by_cases hc : c.noPending = true
  · have := noPending_getPath p c _ hc h
    simp [Value.noPending] at this
  · simpa using hc

/-- Values bound in a well formed tree level are well formed. -/
theorem entriesGood_treeLookup (t : List (String × Value)) (k : String) (v : Value)
    (ht : entriesGood t = true) (h : treeLookup t k = some v) : v.goodValue = true := by
  induction t with
  | nil => simp [treeLookup] at h
  | cons e rest ih =>
    obtain ⟨k0, v0⟩ := e
    simp only [entriesGood, Bool.and_eq_true] at ht
    simp only [treeLookup] at h
    by_cases hk : k0 = k
    · rw [if_pos hk] at h
      simp only [Option.some.injEq] at h
      subst h
      exact ht.1
    · rw [if_neg hk] at h
      exact ih ht.2 h

/-- Every value reachable inside a well formed value is well formed. -/
theorem getPath_goodValue (p : List String) (c v : Value)
    (hc : c.goodValue = true) (h : getPath c p = some v) : v.goodValue = true := by
  induction p generalizing c with
  | nil =>
    simp only [getPath, Option.some.injEq] at h
    subst h
    exact hc
  | cons k r ih =>
    cases c with
    | vtree t =>
      simp only [getPath] at h
      cases hl : treeLookup t k with
      | none => rw [hl] at h; exact absurd h (by simp)
      | some w =>
        rw [hl] at h
        have ht : entriesGood t = true := by
          simp only [Value.goodValue, Bool.and_eq_true] at hc
          exact hc.2
        exact ih w (entriesGood_treeLookup t k w ht hl) h
    | vstr s => simp [getPath] at h
    | vint n => simp [getPath] at h
    | vbool b => simp [getPath] at h
    | vnull => simp [getPath] at h
    | vlist xs => simp [getPath] at h
    | vpending toks => simp [getPath] at h

/-- The whitespace formatting step returns the value itself or some string. -/
theorem formatResolved_cases (v : Value) (ws : String) (i n : Nat) :
    formatResolved v ws i n = v ∨ ∃ s2, formatResolved v ws i n = .vstr s2 := by
  cases v with
  | vstr s =>
    refine Or.inr ?_
    unfold formatResolved
    dsimp only
    by_cases hlt : i < n - 1
    · exact ⟨s ++ ws, by rw [if_pos hlt]⟩
    · exact ⟨s, by rw [if_neg hlt]⟩
  | vint n2 => exact Or.inl rfl
  | vbool b => exact Or.inl rfl
  | vnull => exact Or.inl rfl
  | vlist xs => exact Or.inl rfl
  | vtree t => exact Or.inl rfl
  | vpending toks => exact Or.inl rfl

/-- The whitespace formatting step preserves full concreteness. -/
theorem formatResolved_noPending (v : Value) (ws : String) (i n : Nat)
    (h : v.noPending = true) : (formatResolved v ws i n).noPending = true := by
  cases formatResolved_cases v ws i n with
  | inl he => rw [he]; exact h
  | inr he => obtain ⟨s2, he⟩ := he; rw [he]; rfl

/-- The whitespace formatting step preserves well formedness. -/
theorem formatResolved_goodValue (v : Value) (ws : String) (i n : Nat)
    (h : v.goodValue = true) : (formatResolved v ws i n).goodValue = true := by
  cases formatResolved_cases v ws i n with
  | inl he => rw [he]; exact h
  | inr he => obtain ⟨s2, he⟩ := he; rw [he]; rfl

/-- Overwriting one token slot with a concrete clean value keeps the token
list well formed. -/
theorem toksGood_set (toks : List Token) (i : Nat) (v : Value)
    (ht : toksGood toks = true) (h1 : v.noPending = true) (h2 : v.goodValue = true) :
    toksGood (toks.set i (.tval v)) = true := by
  induction toks generalizing i with
  | nil => exact ht
  | cons t rest ih =>
    cases i with
    | zero =>
      cases t with
      | tval w =>
        simp only [toksGood, Bool.and_eq_true] at ht
        simp only [List.set, toksGood, Bool.and_eq_true]
        exact ⟨⟨h1, h2⟩, ht.2⟩
      | tsub vp w l =>
        simp only [toksGood] at ht
        simp only [List.set, toksGood, Bool.and_eq_true]
        exact ⟨⟨h1, h2⟩, ht⟩
    | succ j =>
      cases t with
      | tval w =>
        simp only [toksGood, Bool.and_eq_true] at ht
        simp only [List.set, toksGood, Bool.and_eq_true]
        exact ⟨ht.1, ih j ht.2⟩
      | tsub vp w l =>
        simp only [toksGood] at ht
        simp only [List.set, toksGood]
        exact ih j ht

/-- A token list with a substitution token has one at some index. -/
theorem any_sub_index (toks : List Token) (h : toks.any Token.isSubTok = true) :
    ∃ (i : Nat) (vp w : String) (l : Nat), toks[i]? = some (Token.tsub vp w l) := by
  induction toks with
  | nil => simp at h
  | cons t rest ih =>
    cases t with
    | tsub vp w l => exact ⟨0, vp, w, l, by simp⟩
    | tval v =>
      simp only [List.any_cons, Token.isSubTok, Bool.false_or] at h
      obtain ⟨i, vp, w, l, hi⟩ := ih h
      exact ⟨i + 1, vp, w, l, by simpa using hi⟩

/-- Concrete token values of a well formed token list are concrete and well
formed. -/
theorem toksGood_mem (toks : List Token) (v : Value)
    (ht : toksGood toks = true) (h : Token.tval v ∈ toks) :
    v.noPending = true ∧ v.goodValue = true := by
  induction toks with
  | nil => simp at h
  | cons t rest ih =>
    cases h with
    | head =>
      simp only [toksGood, Bool.and_eq_true] at ht
      exact ht.1
    | tail _ hmem =>
      cases t with
      | tval w =>
        simp only [toksGood, Bool.and_eq_true] at ht
        exact ih ht.2 hmem
      | tsub vp w l =>
        simp only [toksGood] at ht
        exact ih ht hmem

/-- Replacing a binding does not change which keys occur in a tree level. -/
theorem any_key_replaceKey (t : List (String × Value)) (k : String) (nv : Value) (k2 : String) :
    (replaceKey t k nv).any (fun e => decide (e.1 = k2)) = t.any (fun e => decide (e.1 = k2)) := by
  induction t with
  | nil => rfl
  | cons e rest ih =>
    obtain ⟨k0, v0⟩ := e
    by_cases hk : k0 = k
    · simp [replaceKey, hk]
    · simp only [replaceKey, if_neg hk, List.any_cons]
      rw [ih]

/-- Replacing a binding keeps the key list duplicate free. -/
theorem nodupKeysB_replaceKey (t : List (String × Value)) (k : String) (nv : Value)
    (h : nodupKeysB t = true) : nodupKeysB (replaceKey t k nv) = true := by
  induction t with
  | nil => rfl
  | cons e rest ih =>
    obtain ⟨k0, v0⟩ := e
    simp only [nodupKeysB, Bool.and_eq_true] at h
    by_cases hk : k0 = k
    · simpa [replaceKey, hk, nodupKeysB] using h
    · simp only [replaceKey, if_neg hk, nodupKeysB, Bool.and_eq_true]
      rw [any_key_replaceKey]
      exact ⟨h.1, ih h.2⟩

/-- Replacing a binding with a well formed value keeps the level well formed. -/
theorem entriesGood_replaceKey (t : List (String × Value)) (k : String) (nv : Value)
    (h : entriesGood t = true) (hnv : nv.goodValue = true) :
    entriesGood (replaceKey t k nv) = true := by
  induction t with
  | nil => rfl
  | cons e rest ih =>
    obtain ⟨k0, v0⟩ := e
    simp only [entriesGood, Bool.and_eq_true] at h
    by_cases hk : k0 = k
    · simp only [replaceKey, if_pos hk, entriesGood, Bool.and_eq_true]
      exact ⟨hnv, h.2⟩
    · simp only [replaceKey, if_neg hk, entriesGood, Bool.and_eq_true]
      exact ⟨h.1, ih h.2⟩

/-- A successful overwrite with a well formed value preserves well formedness
of the whole document. -/
theorem setPath_goodValue (p : List String) (c v c2 : Value)
    (hc : c.goodValue = true) (hv : v.goodValue = true) (h : setPath c p v = some c2) :
    c2.goodValue = true := by
  induction p generalizing c c2 with
  | nil =>
    simp only [setPath, Option.some.injEq] at h
    rw [← h]
    exact hv
  | cons k r ih =>
    cases c with
    | vtree t =>
      simp only [setPath] at h
      cases hl : treeLookup t k with
      | none => rw [hl] at h; exact absurd h (by simp)
      | some old =>
        rw [hl] at h
        dsimp only at h
        cases hs : setPath old r v with
        | none => rw [hs] at h; exact absurd h (by simp)
        | some newV =>
          rw [hs] at h
          simp only [Option.some.injEq] at h
          rw [← h]
          simp only [Value.goodValue, Bool.and_eq_true] at hc ⊢
          have hold : old.goodValue = true := entriesGood_treeLookup t k old hc.2 hl
          exact ⟨nodupKeysB_replaceKey t k newV hc.1,
            entriesGood_replaceKey t k newV hc.2 (ih old newV hold hs)⟩
    | vstr s => exact absurd h (by simp [setPath])
    | vint n => exact absurd h (by simp [setPath])
    | vbool b => exact absurd h (by simp [setPath])
    | vnull => exact absurd h (by simp [setPath])
    | vlist xs => exact absurd h (by simp [setPath])
    | vpending toks => exact absurd h (by simp [setPath])

/-- A key occurring after a put occurred before, or it is the key just put. -/
theorem putEntry_any_key (t : List (String × Value)) (key : String) (nv : Value) (k2 : String)
    (h : (putEntry t key nv).any (fun e => decide (e.1 = k2)) = true) :
    t.any (fun e => decide (e.1 = k2)) = true ∨ k2 = key := by
  induction t with
  | nil =>
    simp only [putEntry, List.any_cons, List.any_nil, Bool.or_false,
      decide_eq_true_eq] at h
    exact Or.inr h.symm
  | cons e rest ih =>
    obtain ⟨k0, v0⟩ := e
    by_cases hk : k0 = key
    · simp only [putEntry, if_pos hk, List.any_cons, Bool.or_eq_true] at h
      simp only [List.any_cons, Bool.or_eq_true]
      exact Or.inl h
    · simp only [putEntry, if_neg hk, List.any_cons, Bool.or_eq_true] at h
      cases h with
      | inl h0 => exact Or.inl (by simp only [List.any_cons, Bool.or_eq_true]; exact Or.inl h0)
      | inr h0 =>
        cases ih h0 with
        | inl h1 => exact Or.inl (by simp only [List.any_cons, Bool.or_eq_true]; exact Or.inr h1)
        | inr h1 => exact Or.inr h1

/-- Merging two concrete well formed values yields a concrete well formed
value; stated with the corresponding properties of the entry fold and the
single key put of the merge engine. -/
theorem merge_clean :
    ∀ a b : Value, a.noPending = true → a.goodValue = true →
      b.noPending = true → b.goodValue = true →
      (mergeValue a b).noPending = true ∧ (mergeValue a b).goodValue = true := by
  have main := mergeValue.induct
    (fun a b => a.noPending = true → a.goodValue = true →
      b.noPending = true → b.goodValue = true →
      (mergeValue a b).noPending = true ∧ (mergeValue a b).goodValue = true)
    (fun a b => nodupKeysB a = true → entriesNoPending a = true →
      entriesGood a = true → entriesNoPending b = true → entriesGood b = true →
      nodupKeysB (mergeEntries a b) = true ∧ entriesNoPending (mergeEntries a b) = true ∧
        entriesGood (mergeEntries a b) = true)
    (fun t k v => nodupKeysB t = true → entriesNoPending t = true →
      entriesGood t = true → v.noPending = true → v.goodValue = true →
      nodupKeysB (putEntry t k v) = true ∧ entriesNoPending (putEntry t k v) = true ∧
        entriesGood (putEntry t k v) = true)
  apply main
  · intro a b h2
    intro ha1 ha2 hb1 hb2
    simp only [Value.noPending, Value.goodValue, Bool.and_eq_true] at ha1 ha2 hb1 hb2
    have := h2 ha2.1 ha1 ha2.2 hb1 hb2.2
    simp only [mergeValue, Value.noPending, Value.goodValue, Bool.and_eq_true]
    exact ⟨this.2.1, this.1, this.2.2⟩
  · intro x nv hne ha1 ha2 hb1 hb2
    have hx : mergeValue x nv = nv := by
      rw [mergeValue.eq_def]
      split
      · rename_i a b
        exact (hne a b rfl rfl).elim
      · rfl
    rw [hx]
    exact ⟨hb1, hb2⟩
  · intro a h1 h2 h3 h4 h5
    simp only [mergeEntries]
    exact ⟨h1, h2, h3⟩
  · intro a k v rest hput hrest h1 h2 h3 h4 h5
    simp only [entriesNoPending, entriesGood, Bool.and_eq_true] at h4 h5
    have hp := hput h1 h2 h3 h4.1 h5.1
    simp only [mergeEntries]
    exact hrest hp.1 hp.2.1 hp.2.2 h4.2 h5.2
  · intro k v h1 h2 h3 h4 h5
    simp [putEntry, nodupKeysB, entriesNoPending, entriesGood, h4, h5]
  · intro v rest key nv hmv h1 h2 h3 h4 h5
    simp only [nodupKeysB, entriesNoPending, entriesGood, Bool.and_eq_true] at h1 h2 h3
    have hm := hmv h2.1 h3.1 h4 h5
    simp only [putEntry, if_pos rfl, nodupKeysB, entriesNoPending, entriesGood,
      Bool.and_eq_true]
    exact ⟨⟨h1.1, h1.2⟩, ⟨hm.1, h2.2⟩, ⟨hm.2, h3.2⟩⟩
  · intro k v rest key nv hk hrec h1 h2 h3 h4 h5
    simp only [nodupKeysB, entriesNoPending, entriesGood, Bool.and_eq_true] at h1 h2 h3
    have hr := hrec h1.2 h2.2 h3.2 h4 h5
    simp only [putEntry, if_neg hk, nodupKeysB, entriesNoPending, entriesGood,
      Bool.and_eq_true]
    refine ⟨⟨?_, hr.1⟩, ⟨h2.1, hr.2.1⟩, ⟨h3.1, hr.2.2⟩⟩
    have hnot : (putEntry rest key nv).any (fun e => decide (e.1 = k)) = false := by
      cases hany : (putEntry rest key nv).any (fun e => decide (e.1 = k)) with
      | false => rfl
      | true =>
        cases putEntry_any_key rest key nv k hany with
        | inl h0 =>
          rw [h0] at h1
          simp at h1
        | inr h0 => exact absurd h0 hk
    rw [hnot]
    rfl

/-- Concatenating concrete element lists stays concrete. -/
theorem listNoPending_append (xs ys : List Value) :
    listNoPending (xs ++ ys) = (listNoPending xs && listNoPending ys) := by
  induction xs with
  | nil => simp [listNoPending]
  | cons v r ih => simp [listNoPending, ih, Bool.and_assoc]

/-- The list concatenation fold of the transformer keeps the accumulated
element list concrete. -/
theorem fold_lists_noPending (vs : List Value) (acc : List Value)
    (hvs : ∀ v ∈ vs, v.noPending = true) (hacc : listNoPending acc = true) :
    listNoPending (vs.foldl (fun acc v =>
      match v with | .vlist xs => acc ++ xs | _ => acc) acc) = true := by
  induction vs generalizing acc with
  | nil => exact hacc
  | cons v rest ih =>
    have hv : v.noPending = true := hvs v (List.mem_cons_self v rest)
    have hrest : ∀ w ∈ rest, w.noPending = true := fun w hw => hvs w (List.mem_cons_of_mem v hw)
    cases v with
    | vlist xs =>
      simp only [List.foldl_cons]
      refine ih (acc ++ xs) hrest ?_
      rw [listNoPending_append]
      simp only [Value.noPending] at hv
      simp [hacc, hv]
    | vstr s => exact ih acc hrest hacc
    | vint n => exact ih acc hrest hacc
    | vbool b => exact ih acc hrest hacc
    | vnull => exact ih acc hrest hacc
    | vtree t => exact ih acc hrest hacc
    | vpending toks => exact ih acc hrest hacc

/-- The tree merge fold of the transformer keeps the accumulator concrete and
well formed. -/
theorem fold_merge_clean (vs : List Value) (acc : Value)
    (hvs : ∀ v ∈ vs, v.noPending = true ∧ v.goodValue = true)
    (h1 : acc.noPending = true) (h2 : acc.goodValue = true) :
    (vs.foldl (fun acc v => mergeValue acc v) acc).noPending = true ∧
      (vs.foldl (fun acc v => mergeValue acc v) acc).goodValue = true := by
  induction vs generalizing acc with
  | nil => exact ⟨h1, h2⟩
  | cons v rest ih =>
    have hv := hvs v (List.mem_cons_self v rest)
    have hrest : ∀ w ∈ rest, w.noPending = true ∧ w.goodValue = true :=
      fun w hw => hvs w (List.mem_cons_of_mem v hw)
    simp only [List.foldl_cons]
    have hm := merge_clean acc v h1 h2 hv.1 hv.2
    exact ih (mergeValue acc v) hrest hm.1 hm.2

/-- Outcomes of the transformer on a well formed token list: with a
substitution token left the node is returned pending and unchanged; with none
left the result is a fully concrete well formed value. -/
theorem transform_spec (toks : List Token) (r : Value)
    (ht : toksGood toks = true) (h : transform toks = .ok r) :
    (toks.any Token.isSubTok = true ∧ r = .vpending toks) ∨
    (toks.any Token.isSubTok = false ∧ r.noPending = true ∧ r.goodValue = true) := by
  have hmem : ∀ v ∈ toks.filterMap Token.val?, v.noPending = true ∧ v.goodValue = true := by
    intro v hv
    obtain ⟨t, htm, hts⟩ := List.mem_filterMap.mp hv
    cases t with
    | tval w =>
      simp only [Token.val?, Option.some.injEq] at hts
      subst hts
      exact toksGood_mem toks _ ht htm
    | tsub vp w l => simp [Token.val?] at hts
  unfold transform at h
  by_cases ha : toks.any Token.isSubTok
  · rw [if_pos ha] at h
    simp only [Except.ok.injEq] at h
    exact Or.inl ⟨ha, h.symm⟩
  · rw [if_neg ha] at h
    refine Or.inr ⟨by simpa using ha, ?_⟩
    cases hf : toks.filterMap Token.val? with
    | nil => rw [hf] at h; simp at h
    | cons v vs0 =>
      rw [hf] at h
      cases vs0 with
      | nil =>
        dsimp only at h
        simp only [Except.ok.injEq] at h
        subst h
        exact hmem _ (by rw [hf]; exact List.mem_cons_self _ _)
      | cons v2 vs1 =>
        dsimp only at h
        have hmem2 : ∀ w ∈ v :: v2 :: vs1, w.noPending = true ∧ w.goodValue = true := by
          intro w hw
          exact hmem w (by rw [hf]; exact hw)
        by_cases hstr : (v :: v2 :: vs1).all (fun w =>
            match w with | .vstr _ => true | _ => false)
        · rw [if_pos hstr] at h
          simp only [Except.ok.injEq] at h
          subst h
          exact ⟨rfl, rfl⟩
        · rw [if_neg hstr] at h
          by_cases hlst : (v :: v2 :: vs1).all (fun w =>
              match w with | .vlist _ => true | _ => false)
          · rw [if_pos hlst] at h
            simp only [Except.ok.injEq] at h
            subst h
            have := fold_lists_noPending (v :: v2 :: vs1) []
              (fun w hw => (hmem2 w hw).1) rfl
            exact ⟨by simpa [Value.noPending] using this,
              by simpa [Value.goodValue] using this⟩
          · rw [if_neg hlst] at h
            by_cases htr : (v :: v2 :: vs1).all (fun w =>
                match w with | .vtree _ => true | _ => false)
            · rw [if_pos htr] at h
              simp only [Except.ok.injEq] at h
              subst h
              exact fold_merge_clean (v :: v2 :: vs1) (.vtree []) hmem2 rfl rfl
            · rw [if_neg htr] at h
              simp at h

/-- Segment lists compare as equal, strict extension one way or the other, or
unrelated. -/
theorem prefix_trichotomy (p p2 : List String) :
    p2 = p ∨ (∃ q, q ≠ [] ∧ p2 = p ++ q) ∨ (∃ q, q ≠ [] ∧ p = p2 ++ q) ∨
      (¬ p <+: p2 ∧ ¬ p2 <+: p) := by
  by_cases h1 : p <+: p2
  · obtain ⟨q, hq⟩ := h1
    cases q with
    | nil => exact Or.inl (by simpa using hq.symm)
    | cons a as => exact Or.inr (Or.inl ⟨a :: as, by simp, hq.symm⟩)
  · by_cases h2 : p2 <+: p
    · obtain ⟨q, hq⟩ := h2
      cases q with
      | nil => exact absurd (by simp [← hq] : p <+: p2) h1
      | cons a as => exact Or.inr (Or.inr (Or.inl ⟨a :: as, by simp, hq.symm⟩))
    · exact Or.inr (Or.inr (Or.inr ⟨h1, h2⟩))

/-- Every strict ancestor prefix of a successfully overwritten path existed
before the overwrite. -/
theorem setPath_prefix_exists (p1 : List String) (q : List String) (c c2 v : Value)
    (h : setPath c (p1 ++ q) v = some c2) : ∃ w, getPath c p1 = some w := by
  induction p1 generalizing c c2 with
  | nil => exact ⟨c, by simp [getPath]⟩
  | cons k r ih =>
    cases c with
    | vtree t =>
      simp only [List.cons_append, setPath] at h
      cases hl : treeLookup t k with
      | none => rw [hl] at h; exact absurd h (by simp)
      | some old =>
        rw [hl] at h
        dsimp only at h
        simp only [List.append_eq] at h
        cases hs : setPath old (r ++ q) v with
        | none => rw [hs] at h; exact absurd h (by simp)
        | some newV =>
          obtain ⟨w, hw⟩ := ih old newV hs
          exact ⟨w, by simp only [getPath, hl]; exact hw⟩
    | vstr s => exact absurd h (by simp [setPath])
    | vint n => exact absurd h (by simp [setPath])
    | vbool b => exact absurd h (by simp [setPath])
    | vnull => exact absurd h (by simp [setPath])
    | vlist xs => exact absurd h (by simp [setPath])
    | vpending toks => exact absurd h (by simp [setPath])

/-- The lookup of a still pending value along a nonempty path yields nothing. -/
theorem getPath_pending_cons (toks : List Token) (k : String) (r : List String) :
    getPath (.vpending toks) (k :: r) = none := rfl

/-- A token read back from the slot it was just set to is that token. -/
theorem getElem_set_same_token (toks : List Token) (i : Nat) (x y : Token)
    (h : (toks.set i x)[i]? = some y) : x = y := by
  induction toks generalizing i with
  | nil => simp at h
  | cons t rest ih =>
    cases i with
    | zero => simpa using h
    | succ j =>
      simp only [List.set_cons_succ, List.getElem?_cons_succ] at h
      exact ih j h

/-- Cleanliness of a successfully resolved value: the value written back by
the resolver is fully concrete and well formed. -/
theorem resolveVariable_clean (env : Env) (c : Value) (s : Substitution) (u : Value)
    (X : List Substitution)
    (hg : c.goodValue = true) (hlk : LookupsClean c (s :: X)) (henv : EnvClean env)
    (hu : resolveVariable env c s = .ok u) (hnp : u.isPendingB = false) :
    u.noPending = true ∧ u.goodValue = true := by
  unfold resolveVariable at hu
  cases hgp : getPath c (splitPath s.varPath) with
  | some v =>
    rw [hgp] at hu
    simp only [Except.ok.injEq] at hu
    rw [← hu] at hnp ⊢
    have hv := hlk s (List.mem_cons_self s X) v hgp
    refine ⟨?_, getPath_goodValue _ c v hg hgp⟩
    cases hv with
    | inl hpend => rw [hnp] at hpend; exact absurd hpend (by simp)
    | inr hclean => exact hclean
  | none =>
    rw [hgp] at hu
    dsimp only at hu
    cases he : env s.varPath with
    | none => rw [he] at hu; simp at hu
    | some value =>
      rw [he] at hu
      dsimp only at hu
      by_cases hcomp : value.isCompositeB
      · rw [if_pos hcomp] at hu; simp at hu
      · rw [if_neg hcomp] at hu
        simp only [Except.ok.injEq] at hu
        rw [← hu]
        exact henv _ _ he

/-- Invariant preservation by one successful resolution step: writing a
concrete value into its token slot and transforming the owning pending node
keeps the document well formed, keeps every remaining pending node covered by
the remaining working set, and keeps every remaining lookup clean. -/
theorem step_inv (env : Env) (c : Value) (s : Substitution) (X : List Substitution)
    (u : Value) (c2 : Value)
    (hg : c.goodValue = true) (hcov : Covered c (s :: X)) (hlk : LookupsClean c (s :: X))
    (henv : EnvClean env)
    (hu : resolveVariable env c s = .ok u)
    (hnp : u.isPendingB = false)
    (hstep : resolveStep c s u = .ok c2) :
    c2.goodValue = true ∧ Covered c2 X ∧ LookupsClean c2 X := by
  obtain ⟨hu1, hu2⟩ := resolveVariable_clean env c s u X hg hlk henv hu hnp
  unfold resolveStep at hstep
  split at hstep
  case h_2 => exact absurd hstep (by simp)
  case h_1 x toks heq =>
  dsimp only at hstep
  cases ht : transform (toks.set s.index (Token.tval (formatResolved u s.ws s.index toks.length))) with
  | error e => rw [ht] at hstep; exact absurd hstep (by simp)
  | ok result =>
  rw [ht] at hstep
  dsimp only at hstep
  cases hsp : setPath c s.path result with
  | none => rw [hsp] at hstep; exact absurd hstep (by simp)
  | some c3 =>
  rw [hsp] at hstep
  simp only [Except.ok.injEq] at hstep
  subst hstep
  have htoks : toksGood toks = true := by
    have := getPath_goodValue s.path c _ hg heq
    simpa [Value.goodValue] using this
  have hfmt1 : (formatResolved u s.ws s.index toks.length).noPending = true :=
    formatResolved_noPending u s.ws s.index toks.length hu1
  have hfmt2 : (formatResolved u s.ws s.index toks.length).goodValue = true :=
    formatResolved_goodValue u s.ws s.index toks.length hu2
  have htoks2 : toksGood (toks.set s.index
      (Token.tval (formatResolved u s.ws s.index toks.length))) = true :=
    toksGood_set toks s.index _ htoks hfmt1 hfmt2
  have hres := transform_spec _ result htoks2 ht
  have hresg : result.goodValue = true := by
    cases hres with
    | inl hr => rw [hr.2]; simpa [Value.goodValue] using htoks2
    | inr hr => exact hr.2.2
  have hg2 : c3.goodValue = true := setPath_goodValue s.path c result c3 hg hresg hsp
  have hself : getPath c3 s.path = some result := getPath_setPath_self s.path c c3 result hsp
  refine ⟨hg2, ?_, ?_⟩
  · -- coverage of the new state by the remaining working set
    intro p2 toks0 hp2
    rcases prefix_trichotomy s.path p2 with heqp | ⟨q, hqne, hp2eq⟩ | ⟨q, hqne, hpeq⟩ | ⟨hn1, hn2⟩
    · subst heqp
      rw [hself] at hp2
      simp only [Option.some.injEq] at hp2
      cases hres with
      | inr hr =>
        rw [hp2] at hr
        simp [Value.noPending] at hr
      | inl hr =>
        have htoks0 : toks0 = toks.set s.index
            (Token.tval (formatResolved u s.ws s.index toks.length)) := by
          rw [hr.2] at hp2
          exact (Value.vpending.injEq _ _).mp hp2.symm
        subst htoks0
        refine ⟨hr.1, ?_⟩
        intro i vp w l hi
        by_cases hii : s.index = i
        · subst hii
          have := getElem_set_same_token toks s.index _ _ hi
          exact absurd this (by simp)
        · rw [List.getElem?_set_ne hii] at hi
          obtain ⟨hany0, hcover0⟩ := hcov s.path toks heq
          obtain ⟨s1, hs1, hpath1, hidx1⟩ := hcover0 i vp w l hi
          cases List.mem_cons.mp hs1 with
          | inl hseq => exact absurd (hseq ▸ hidx1) hii
          | inr hmem => exact ⟨s1, hmem, hpath1, hidx1⟩
    · subst hp2eq
      rw [getPath_append, hself] at hp2
      simp only [Option.some_bind] at hp2
      cases hres with
      | inl hr =>
        rw [hr.2] at hp2
        cases q with
        | nil => exact absurd rfl hqne
        | cons kq rq => rw [getPath_pending_cons] at hp2; exact absurd hp2 (by simp)
      | inr hr =>
        have := getPath_pending_not_noPending q result toks0 hp2
        rw [hr.2.1] at this
        exact absurd this (by simp)
    · -- the overwritten path lies strictly below the found pending: impossible
      rw [hpeq, getPath_append] at heq
      cases hw : getPath c p2 with
      | none => rw [hw] at heq; exact absurd heq (by simp)
      | some w =>
        rw [hw] at heq
        simp only [Option.some_bind] at heq
        obtain ⟨w2, hsetw, hgetw⟩ :=
          getPath_setPath_above p2 q c c3 result w (by rw [← hpeq]; exact hsp) hw
        rw [hgetw] at hp2
        simp only [Option.some.injEq] at hp2
        cases q with
        | nil => exact absurd rfl hqne
        | cons kq rq =>
          obtain ⟨t2, ht2⟩ := setPath_cons_vtree w w2 result kq rq hsetw
          rw [ht2] at hp2
          exact absurd hp2 (by simp)
    · rw [getPath_setPath_indep p2 s.path c c3 result hsp hn1 hn2] at hp2
      obtain ⟨hany0, hcover0⟩ := hcov p2 toks0 hp2
      refine ⟨hany0, ?_⟩
      intro i vp w l hi
      obtain ⟨s1, hs1, hpath1, hidx1⟩ := hcover0 i vp w l hi
      cases List.mem_cons.mp hs1 with
      | inl hseq =>
        subst hseq
        exact absurd (hpath1 ▸ List.prefix_refl p2) hn2
      | inr hmem => exact ⟨s1, hmem, hpath1, hidx1⟩
  · -- lookup cleanliness of the new state
    intro s1 hs1 v hv
    rcases prefix_trichotomy s.path (splitPath s1.varPath) with
      heqp | ⟨q, hqne, hp2eq⟩ | ⟨q, hqne, hpeq⟩ | ⟨hn1, hn2⟩
    · rw [heqp, hself] at hv
      simp only [Option.some.injEq] at hv
      rw [← hv]
      cases hres with
      | inl hr => exact Or.inl (by rw [hr.2]; rfl)
      | inr hr => exact Or.inr hr.2.1
    · rw [hp2eq, getPath_append, hself] at hv
      simp only [Option.some_bind] at hv
      cases hres with
      | inl hr =>
        rw [hr.2] at hv
        cases q with
        | nil => exact absurd rfl hqne
        | cons kq rq => rw [getPath_pending_cons] at hv; exact absurd hv (by simp)
      | inr hr => exact Or.inr (noPending_getPath q result v hr.2.1 hv)
    · rw [hpeq, getPath_append] at heq
      cases hw : getPath c (splitPath s1.varPath) with
      | none => rw [hw] at heq; exact absurd heq (by simp)
      | some w =>
        rw [hw] at heq
        simp only [Option.some_bind] at heq
        have hwclean := hlk s1 (List.mem_cons_of_mem s hs1) w hw
        cases hwclean with
        | inl hpend =>
          cases w with
          | vpending tw =>
            cases q with
            | nil => exact absurd rfl hqne
            | cons kq rq => rw [getPath_pending_cons] at heq; exact absurd heq (by simp)
          | vstr s2 => simp [Value.isPendingB] at hpend
          | vint n2 => simp [Value.isPendingB] at hpend
          | vbool b2 => simp [Value.isPendingB] at hpend
          | vnull => simp [Value.isPendingB] at hpend
          | vlist xs => simp [Value.isPendingB] at hpend
          | vtree t2 => simp [Value.isPendingB] at hpend
        | inr hclean =>
          have := getPath_pending_not_noPending q w toks heq
          rw [hclean] at this
          exact absurd this (by simp)
    · rw [getPath_setPath_indep (splitPath s1.varPath) s.path c c3 result hsp hn1 hn2] at hv
      exact hlk s1 (List.mem_cons_of_mem s hs1) v hv

/-- The invariant depends on the working set only through membership. -/
theorem Inv_congr (env : Env) (c : Value) (l1 l2 : List Substitution)
    (hm : ∀ x, x ∈ l1 ↔ x ∈ l2) (h : Inv env c l1) : Inv env c l2 := by
  obtain ⟨hg, hcov, hlk, henv⟩ := h
  refine ⟨hg, ?_, ?_, henv⟩
  · intro p toks hp
    obtain ⟨hany, hcover⟩ := hcov p toks hp
    refine ⟨hany, ?_⟩
    intro i vp w l hi
    obtain ⟨s1, hs1, hrest⟩ := hcover i vp w l hi
    exact ⟨s1, (hm s1).mp hs1, hrest⟩
  · intro s1 hs1 v hv
    exact hlk s1 ((hm s1).mpr hs1) v hv

/-- Invariant preservation by a whole pass: the substitutions the pass keeps,
together with any untouched ones, still cover the resulting document. -/
theorem pass_inv (env : Env) (todo : List Substitution) :
    ∀ (c : Value) (K : List Substitution) (c2 : Value) (rem : List Substitution),
      Inv env c (todo ++ K) → resolvePass env todo c = .ok (c2, rem) →
      Inv env c2 (rem ++ K) := by
  induction todo with
  | nil =>
    intro c K c2 rem hInv h
    simp only [resolvePass, Except.ok.injEq, Prod.mk.injEq] at h
    rw [← h.1, ← h.2]
    simpa using hInv
  | cons s rest ih =>
    intro c K c2 rem hInv h
    simp only [resolvePass] at h
    cases hv : resolveVariable env c s with
    | error e => rw [hv] at h; simp at h
    | ok u =>
      rw [hv] at h
      dsimp only at h
      by_cases hp : u.isPendingB
      · rw [if_pos hp] at h
        cases hrec : resolvePass env rest c with
        | error e => rw [hrec] at h; simp at h
        | ok pr =>
          obtain ⟨c3, rem2⟩ := pr
          rw [hrec] at h
          simp only [Except.ok.injEq, Prod.mk.injEq] at h
          have hInv2 : Inv env c (rest ++ (s :: K)) := by
            refine Inv_congr env c ((s :: rest) ++ K) (rest ++ (s :: K)) ?_ hInv
            intro x
            simp only [List.mem_append, List.mem_cons]
            tauto
          have hres := ih c (s :: K) c3 rem2 hInv2 hrec
          rw [← h.1, ← h.2]
          refine Inv_congr env c3 (rem2 ++ (s :: K)) ((s :: rem2) ++ K) ?_ hres
          intro x
          simp only [List.mem_append, List.mem_cons]
          tauto
      · rw [if_neg hp] at h
        cases hst : resolveStep c s u with
        | error e => rw [hst] at h; simp at h
        | ok c3 =>
          rw [hst] at h
          obtain ⟨hg, hcov, hlk, henv⟩ := hInv
          have hstep := step_inv env c s (rest ++ K) u c3 hg hcov hlk henv hv
            (by simpa using hp) hst
          exact ih c3 K c2 rem ⟨hstep.1, hstep.2.1, hstep.2.2, henv⟩ h

/-- With duplicate free keys every binding is the one the lookup returns. -/
theorem nodup_lookup_mem (t : List (String × Value)) (k : String) (v : Value)
    (hnd : nodupKeysB t = true) (h : (k, v) ∈ t) : treeLookup t k = some v := by
  induction t with
  | nil => simp at h
  | cons e rest ih =>
    obtain ⟨k0, v0⟩ := e
    simp only [nodupKeysB, Bool.and_eq_true] at hnd
    cases List.mem_cons.mp h with
    | inl he =>
      obtain ⟨hk, hv⟩ := Prod.mk.injEq k0 v0 k v ▸ he.symm
      simp [treeLookup, hk, hv]
    | inr hmem =>
      by_cases hk : k0 = k
      · exfalso
        have : rest.any (fun e => decide (e.1 = k0)) = true :=
          List.any_eq_true.mpr ⟨(k, v), hmem, by simp [hk]⟩
        rw [this] at hnd
        simpa using hnd.1
      · simp only [treeLookup, if_neg hk]
        exact ih hnd.2 hmem

/-- A level all of whose values are concrete is concrete. -/
theorem entriesNoPending_of_all (t : List (String × Value))
    (h : ∀ e ∈ t, (e.2).noPending = true) : entriesNoPending t = true := by
  induction t with
  | nil => rfl
  | cons e rest ih =>
    obtain ⟨k, v⟩ := e
    simp only [entriesNoPending, Bool.and_eq_true]
    exact ⟨h (k, v) (List.mem_cons_self _ _),
      ih (fun e he => h e (List.mem_cons_of_mem _ he))⟩

/-- A well formed value with no reachable pending node is fully concrete. -/
theorem noPending_of_no_reachable (c : Value) (hg : c.goodValue = true)
    (hnr : ∀ p toks, ¬ getPath c p = some (.vpending toks)) : c.noPending = true := by
  suffices aux : ∀ (n : Nat) (c : Value), sizeOf c ≤ n → c.goodValue = true →
      (∀ p toks, ¬ getPath c p = some (.vpending toks)) → c.noPending = true by
    exact aux (sizeOf c) c le_rfl hg hnr
  intro n
  induction n with
  | zero =>
    intro c hsz
    exact absurd hsz (by cases c <;> simp)
  | succ n ihn =>
    intro c hsz hg2 hnr2
    cases c with
    | vstr s => rfl
    | vint m => rfl
    | vbool b => rfl
    | vnull => rfl
    | vpending toks => exact (hnr2 [] toks (by simp [getPath])).elim
    | vlist xs =>
      simp only [Value.goodValue] at hg2
      simpa [Value.noPending] using hg2
    | vtree t =>
      simp only [Value.goodValue, Bool.and_eq_true] at hg2
      obtain ⟨hnd, hge⟩ := hg2
      simp only [Value.noPending]
      refine entriesNoPending_of_all t ?_
      intro e he
      obtain ⟨k, v⟩ := e
      have hlkv : treeLookup t k = some v := nodup_lookup_mem t k v hnd he
      have hvg : v.goodValue = true := entriesGood_treeLookup t k v hge hlkv
      have hvnr : ∀ p toks, ¬ getPath v p = some (.vpending toks) := by
        intro p toks hp
        exact hnr2 (k :: p) toks (by simp only [getPath, hlkv]; exact hp)
      have hszv : sizeOf v ≤ n := by
        have h1 : sizeOf (k, v) < sizeOf t := List.sizeOf_lt_of_mem he
        have h2 : sizeOf v < sizeOf (k, v) := by simp
        have h3 : sizeOf (Value.vtree t) = 1 + sizeOf t := by simp
        omega
      exact ihn v hszv hvg hvnr

/-- With an empty working set no pending node is reachable at all. -/
theorem covered_nil_no_reachable (c : Value) (hcov : Covered c []) :
    ∀ p toks, ¬ getPath c p = some (.vpending toks) := by
  intro p toks hp
  obtain ⟨hany, hcover⟩ := hcov p toks hp
  obtain ⟨i, vp, w, l, hi⟩ := any_sub_index toks hany
  obtain ⟨s1, hs1, -⟩ := hcover i vp w l hi
  simp at hs1

/-- The pass loop started in an invariant state only ever returns fully
concrete trees. -/
theorem loop_noPending (env : Env) :
    ∀ (n : Nat) (c : Value) (subs : List Substitution) (t2 : Value),
      Inv env c subs → resolveLoop env n c subs = .ok t2 → t2.noPending = true := by
  intro n
  induction n with
  | zero =>
    intro c subs t2 _ h
    simp [resolveLoop] at h
  | succ n ihn =>
    intro c subs t2 hInv h
    simp only [resolveLoop] at h
    cases hp : resolvePass env subs c with
    | error e => rw [hp] at h; simp at h
    | ok pr =>
      obtain ⟨c3, rem⟩ := pr
      rw [hp] at h
      dsimp only at h
      have hInv3 : Inv env c3 rem := by
        have h0 : Inv env c (subs ++ []) := Inv_congr env c subs (subs ++ []) (by simp) hInv
        have h1 := pass_inv env subs c [] c3 rem h0 hp
        exact Inv_congr env c3 (rem ++ []) rem (by simp) h1
      by_cases hre : rem.isEmpty
      · rw [if_pos hre] at h
        simp only [Except.ok.injEq] at h
        rw [← h]
        rw [List.isEmpty_iff.mp hre] at hInv3
        obtain ⟨hg3, hcov3, -, -⟩ := hInv3
        exact noPending_of_no_reachable c3 hg3 (covered_nil_no_reachable c3 hcov3)
      · rw [if_neg hre] at h
        exact ihn c3 rem t2 hInv3 h

/-- Pending nodes found by lookups are collected by the pending path listing. -/
theorem getPath_mem_pendingPaths :
    ∀ (p : List String) (c : Value) (toks : List Token),
      getPath c p = some (.vpending toks) → (p, toks) ∈ c.pendingPaths := by
  intro p
  induction p with
  | nil =>
    intro c toks h
    simp only [getPath, Option.some.injEq] at h
    rw [h]
    simp [Value.pendingPaths]
  | cons k r ih =>
    intro c toks h
    cases c with
    | vtree t =>
      simp only [getPath] at h
      cases hl : treeLookup t k with
      | none => rw [hl] at h; exact absurd h (by simp)
      | some v =>
        rw [hl] at h
        have hmem := ih v toks h
        simp only [Value.pendingPaths]
        clear ih h
        induction t with
        | nil => simp [treeLookup] at hl
        | cons e rest iht =>
          obtain ⟨k0, v0⟩ := e
          simp only [treeLookup] at hl
          by_cases hk : k0 = k
          · rw [if_pos hk] at hl
            simp only [Option.some.injEq] at hl
            subst hl
            subst hk
            simp only [entriesPendingPaths, List.mem_append]
            exact Or.inl (List.mem_map.mpr ⟨(r, toks), hmem, rfl⟩)
          · rw [if_neg hk] at hl
            simp only [entriesPendingPaths, List.mem_append]
            exact Or.inr (iht hl)
    | vstr s => simp [getPath] at h
    | vint n => simp [getPath] at h
    | vbool b => simp [getPath] at h
    | vnull => simp [getPath] at h
    | vlist xs => simp [getPath] at h
    | vpending toks2 => simp [getPath] at h

/-- The computable checks imply the lookup stated invariant. -/
theorem checks_to_inv (env : Env) (c : Value) (subs : List Substitution)
    (hg : c.goodValue = true) (hcv : covB c subs = true) (hw3 : w3B c subs = true)
    (henv : EnvClean env) : Inv env c subs := by
  refine ⟨hg, ?_, ?_, henv⟩
  · intro p toks hp
    have hmem := getPath_mem_pendingPaths p c toks hp
    have hall := List.all_eq_true.mp hcv (p, toks) hmem
    simp only [Bool.and_eq_true] at hall
    refine ⟨hall.1, ?_⟩
    intro i vp w l hi
    have hlt : i < toks.length := by
      obtain ⟨hl, -⟩ := List.getElem?_eq_some.mp hi
      exact hl
    have hri := List.all_eq_true.mp hall.2 i (List.mem_range.mpr hlt)
    simp only at hri
    rw [hi] at hri
    obtain ⟨s1, hs1, hb⟩ := List.any_eq_true.mp hri
    simp only [Bool.and_eq_true, decide_eq_true_eq] at hb
    exact ⟨s1, hs1, hb.1, hb.2⟩
  · intro s1 hs1 v hv
    have hall := List.all_eq_true.mp hw3 s1 hs1
    rw [hv] at hall
    simpa [Bool.or_eq_true] using hall

/-- C1: a substitution whose lookup yields a value that is itself still
pending is kept in the working set of the pass and retried by the next pass,
so a forward reference resolves regardless of declaration order: the document
with a: a reference to b and b: 5 resolves to a = 5 and b = 5 in both
declaration orders, and the two step chain document, whose first reference
needs a second pass, resolves fully as well. -/
theorem claim_C1 :
    (∀ (env : Env) (c : Value) (s : Substitution) (rest : List Substitution)
        (c2 : Value) (rem : List Substitution) (toks : List Token),
        resolveVariable env c s = .ok (.vpending toks) →
        resolvePass env (s :: rest) c = .ok (c2, rem) → s ∈ rem) ∧
    resolveSubstitutions envNone docAB [subAB] = .ok (.vtree [("a", .vint 5), ("b", .vint 5)]) ∧
    resolveSubstitutions envNone docBA [subBA] = .ok (.vtree [("b", .vint 5), ("a", .vint 5)]) ∧
    resolveSubstitutions envNone docChain [subChainA, subChainB] =
      .ok (.vtree [("a", .vint 5), ("b", .vint 5), ("c", .vint 5)]) := by
  refine ⟨?_, rfl, rfl, rfl⟩
  intro env c s rest c2 rem toks h1 h2
  simp only [resolvePass, h1, Value.isPendingB, if_true] at h2
  cases hp : resolvePass env rest c with
  | error e =>
    rw [hp] at h2
    simp at h2
  | ok pr =>
    obtain ⟨c3, rem2⟩ := pr
    rw [hp] at h2
    simp only [Except.ok.injEq, Prod.mk.injEq] at h2
    obtain ⟨-, h4⟩ := h2
    rw [← h4]
    exact List.mem_cons_self s rem2

/-- Witness for C1: the chain document keeps its first reference in the
working set of the first pass, because its target is still pending there. -/
theorem claim_C1_witness : subChainA ∈ [subChainA] :=
  claim_C1.1 envNone docChain subChainA [] docChain [subChainA] [.tsub "c" "" 13] rfl rfl

/-- C2: a resolution that fails with the cycle error names exactly the
substitutions of a nonempty remaining working set, each with its path, line
and column; the direct cycle document fails naming both paths; in the mixed
document the resolvable reference is written during the first pass and the
final error names only the truly cyclic remainder. -/
theorem claim_C2 :
    (∀ (env : Env) (c : Value) (subs : List Substitution) (e : List (String × Nat × Nat)),
        resolveSubstitutions env c subs = .error (.cycle e) →
        ∃ rem : List Substitution, rem ≠ [] ∧ e = rem.map entryOf) ∧
    resolveSubstitutions envNone docCyc [subCycA, subCycB] =
      .error (.cycle [("b", 1, 5), ("a", 1, 14)]) ∧
    resolvePass envNone [subMixA, subMixB, subMixC] docMix = .ok (docMixAfter, [subMixA, subMixB]) ∧
    resolveSubstitutions envNone docMix [subMixA, subMixB, subMixC] =
      .error (.cycle [("b", 1, 5), ("a", 1, 14)]) := by
  refine ⟨?_, rfl, rfl, rfl⟩
  intro env c subs e h
  cases subs with
  | nil => simp [resolveSubstitutions] at h
  | cons s rest =>
    unfold resolveSubstitutions at h
    rw [if_pos (by simp)] at h
    exact resolveLoop_cycle_shape rest.length env c (s :: rest) e h

/-- Witness for C2: the direct cycle failure applied to the shape lemma. -/
theorem claim_C2_witness :
    ∃ rem : List Substitution, rem ≠ [] ∧ [("b", 1, 5), ("a", 1, 14)] = rem.map entryOf :=
  claim_C2.1 envNone docCyc [subCycA, subCycB] [("b", 1, 5), ("a", 1, 14)] rfl

/-- C4: when the dotted path of a substitution is absent from the tree, the
resolver falls back to the environment lookup of the same path string, and
when that also yields nothing it fails with the error naming the path and its
line and column; the closed document with the path nope raises exactly that. -/
theorem claim_C4 :
    (∀ (env : Env) (c : Value) (s : Substitution),
        getPath c (splitPath s.varPath) = none → env s.varPath = none →
        resolveVariable env c s =
          .error (.cannotResolve s.varPath (lineno s.loc s.instring) (colOf s.loc s.instring))) ∧
    resolveSubstitutions envNone docMissing [subMissing] = .error (.cannotResolve "nope" 1 5) := by
  refine ⟨?_, rfl⟩
  intro env c s h1 h2
  unfold resolveVariable
  rw [h1, h2]

/-- Witness for C4: the lookup of the path nope against an empty tree and an
empty environment fails naming the path at line 1, column 5. -/
theorem claim_C4_witness :
    resolveVariable envNone (.vtree []) subMissing = .error (.cannotResolve "nope" 1 5) :=
  claim_C4.1 envNone (.vtree []) subMissing rfl rfl

/-- C5: a string typed resolved value that is not the last token of its
pending node gets exactly the captured whitespace appended before the write
back; a last token or a non string value is written unchanged; the three
concatenation documents with zero, one and three captured spaces produce x
suffix with exactly the original whitespace, and the last token document drops
its trailing captured space. -/
theorem claim_C5 :
    (∀ (str ws : String) (i n : Nat), i < n - 1 →
        formatResolved (.vstr str) ws i n = .vstr (str ++ ws)) ∧
    (∀ (str ws : String) (i n : Nat), ¬ i < n - 1 →
        formatResolved (.vstr str) ws i n = .vstr str) ∧
    (∀ (v : Value) (ws : String) (i n : Nat), (∀ str, v ≠ .vstr str) →
        formatResolved v ws i n = v) ∧
    resolveSubstitutions envNone docW0 [subW0] =
      .ok (.vtree [("name", .vstr "x"), ("full", .vstr "x suffix")]) ∧
    resolveSubstitutions envNone docW1 [subW1] =
      .ok (.vtree [("name", .vstr "x"), ("full", .vstr "x suffix")]) ∧
    resolveSubstitutions envNone docW3 [subW3] =
      .ok (.vtree [("name", .vstr "x"), ("full", .vstr "x   suffix")]) ∧
    resolveSubstitutions envNone docWLast [subWLast] =
      .ok (.vtree [("name", .vstr "x"), ("full", .vstr "pre x")]) := by
  refine ⟨?_, ?_, ?_, rfl, rfl, rfl, rfl⟩
  · intro str ws i n h
    simp [formatResolved, h]
  · intro str ws i n h
    simp [formatResolved, h]
  · intro v ws i n h
    cases v <;> first | rfl | exact absurd rfl (h _)

/-- Witness for C5: the whitespace rule evaluated at concrete positions. -/
theorem claim_C5_witness :
    formatResolved (.vstr "x") " " 0 2 = .vstr "x " ∧
    formatResolved (.vstr "x") " " 1 2 = .vstr "x" ∧
    formatResolved (.vlist []) " " 0 2 = .vlist [] :=
  ⟨claim_C5.1 "x" " " 0 2 (by decide), claim_C5.2.1 "x" " " 1 2 (by decide),
    claim_C5.2.2.1 (.vlist []) " " 0 2 (fun _ h => Value.noConfusion h)⟩

/-- Counterexample for C6: a substitution inside a two token concatenation
resolves from the tree to a composite value, the list holding 1, yet
resolution raises no error at all: the transformer concatenates it with the
neighbouring list literal and returns the merged document. -/
theorem claim_C6_counterexample :
    resolveVariable envNone docC6 subC6 = .ok (.vlist [.vint 1]) ∧
    resolveSubstitutions envNone docC6 [subC6] =
      .ok (.vtree [("x", .vlist [.vint 1]), ("y", .vlist [.vint 1, .vint 2])]) :=
  ⟨rfl, rfl⟩

/-- C6 as amended: only an environment derived composite value is rejected by
the variable lookup itself; a tree derived composite inside a multi token
concatenation is handed to the transformer, which fails only when the token
kinds are incompatible, while an all list or all tree run concatenates or
merges instead. -/
theorem claim_C6 :
    (∀ (env : Env) (c : Value) (s : Substitution) (v : Value),
        getPath c (splitPath s.varPath) = none → env s.varPath = some v →
        v.isCompositeB = true →
        resolveVariable env c s = .error (.compositeEnv s.varPath
          (match v with | .vlist _ => "ConfigList" | _ => "ConfigTree")
          (lineno s.loc s.instring) (colOf s.loc s.instring))) ∧
    resolveSubstitutions envNone docC6m [subC6m] = .error .shape ∧
    resolveSubstitutions envNone docC6 [subC6] =
      .ok (.vtree [("x", .vlist [.vint 1]), ("y", .vlist [.vint 1, .vint 2])]) := by
  refine ⟨?_, rfl, rfl⟩
  intro env c s v h1 h2 h3
  unfold resolveVariable
  rw [h1, h2]
  simp [h3]

/-- Witness for C6: an environment bound composite value is rejected with the
composite error naming the path and position. -/
theorem claim_C6_witness :
    resolveVariable envList docFOO subFOO = .error (.compositeEnv "FOO" "ConfigList" 1 5) :=
  claim_C6.1 envList docFOO subFOO (.vlist []) rfl rfl rfl

/-- C7: the order in which the working set is visited changes the outcome of
resolution. In the order dependence document the reference to b.c reads
through the still pending value of b: visiting the reference to d first makes
the whole document resolve, visiting the reference to b.c first makes the
lookup fall back to the environment and fail hard, so the two orders do not
produce the same tree. -/
theorem claim_C7 :
    resolveSubstitutions envNone docC7 [subC7d, subC7a] =
      .ok (.vtree [("a", .vint 5), ("b", .vtree [("c", .vint 5)]), ("d", .vtree [("c", .vint 5)])]) ∧
    resolveSubstitutions envNone docC7 [subC7a, subC7d] = .error (.cannotResolve "b.c" 1 5) :=
  ⟨rfl, rfl⟩

/-- C8: with an empty recorded substitution list the resolver returns the very
tree it was given, so every lookup yields the same value before and after the
resolution pass. -/
theorem claim_C8 :
    ∀ (env : Env) (c : Value),
      resolveSubstitutions env c [] = .ok c ∧
      (∀ (t2 : Value) (p : List String),
        resolveSubstitutions env c [] = .ok t2 → getPath t2 p = getPath c p) := by
  intro env c
  refine ⟨rfl, ?_⟩
  intro t2 p h
  have hc : c = t2 := by simpa [resolveSubstitutions] using h
  rw [hc]

/-- Remaining working set of a pass never grows: a substitution survives a
pass only by being carried over. -/
theorem resolvePass_rem_le (env : Env) (subs : List Substitution) (c c2 : Value)
    (rem : List Substitution) (h : resolvePass env subs c = .ok (c2, rem)) :
    rem.length ≤ subs.length := by
  induction subs generalizing c c2 rem with
  | nil =>
    simp only [resolvePass, Except.ok.injEq, Prod.mk.injEq] at h
    simp [← h.2]
  | cons s rest ih =>
    simp only [resolvePass] at h
    split at h
    · exact absurd h (by simp)
    · split at h
      · cases hp : resolvePass env rest c with
        | error e => rw [hp] at h; exact absurd h (by simp)
        | ok pr =>
          obtain ⟨c3, rem2⟩ := pr
          rw [hp] at h
          simp only [Except.ok.injEq, Prod.mk.injEq] at h
          rw [← h.2]
          simpa using ih c c3 rem2 hp
      · split at h
        · exact absurd h (by simp)
        · exact Nat.le_succ_of_le (ih _ _ _ h)

/-- Each pass either strictly shrinks the working set, or it resolves nothing
at all and then both the tree and the working set are returned unchanged. -/
theorem resolvePass_progress_or_stall (env : Env) (subs : List Substitution) (c c2 : Value)
    (rem : List Substitution) (h : resolvePass env subs c = .ok (c2, rem)) :
    rem.length < subs.length ∨ (rem = subs ∧ c2 = c) := by
  induction subs generalizing c c2 rem with
  | nil =>
    simp only [resolvePass, Except.ok.injEq, Prod.mk.injEq] at h
    exact Or.inr ⟨h.2.symm, h.1.symm⟩
  | cons s rest ih =>
    simp only [resolvePass] at h
    split at h
    · exact absurd h (by simp)
    · split at h
      · cases hp : resolvePass env rest c with
        | error e => rw [hp] at h; exact absurd h (by simp)
        | ok pr =>
          obtain ⟨c3, rem2⟩ := pr
          rw [hp] at h
          simp only [Except.ok.injEq, Prod.mk.injEq] at h
          obtain ⟨hc, hr⟩ := h
          cases ih c c3 rem2 hp with
          | inl hlt =>
            left
            rw [← hr]
            simpa using Nat.succ_lt_succ hlt
          | inr heq =>
            right
            exact ⟨by rw [← hr, heq.1], by rw [← hc, heq.2]⟩
      · split at h
        · exact absurd h (by simp)
        · left
          exact Nat.lt_succ_of_le (resolvePass_rem_le env rest _ _ _ h)

/-- A stalled state loops forever: when a pass returns tree and working set
unchanged, every fuel budget ends in the cycle error naming that set. -/
theorem resolveLoop_stalled (env : Env) (c : Value) (subs : List Substitution)
    (hp : resolvePass env subs c = .ok (c, subs)) (hne : subs ≠ []) :
    ∀ n, resolveLoop env n c subs = .error (.cycle (subs.map entryOf)) := by
  intro n
  induction n with
  | zero => rfl
  | succ n ih =>
    simp only [resolveLoop, hp]
    rw [if_neg (by simpa [List.isEmpty_iff] using hne)]
    exact ih

/-- Fuel stability: one unit of fuel per substitution is enough; any larger
pass budget produces the identical outcome. -/
theorem resolveLoop_stable (env : Env) :
    ∀ (m : Nat) (c : Value) (subs : List Substitution), subs ≠ [] →
      subs.length ≤ m → resolveLoop env m c subs = resolveLoop env subs.length c subs := by
  intro m
  induction m using Nat.strong_induction_on with
  | _ m ih =>
    intro c subs hne hlen
    cases subs with
    | nil => exact absurd rfl hne
    | cons s rest =>
      cases m with
      | zero => simp at hlen
      | succ m0 =>
        simp only [List.length_cons] at hlen ⊢
        simp only [resolveLoop]
        cases hp : resolvePass env (s :: rest) c with
        | error e => rfl
        | ok pr =>
          obtain ⟨c2, rem⟩ := pr
          dsimp only
          by_cases hre : rem.isEmpty
          · rw [if_pos hre, if_pos hre]
          · rw [if_neg hre, if_neg hre]
            have hrne : rem ≠ [] := by simpa [List.isEmpty_iff] using hre
            cases resolvePass_progress_or_stall env (s :: rest) c c2 rem hp with
            | inl hlt =>
              have h1 : rem.length ≤ m0 := by
                have := Nat.lt_of_lt_of_le hlt hlen
                omega
              have h2 : rem.length ≤ rest.length := by
                simpa [Nat.lt_succ_iff] using hlt
              rw [ih m0 (by omega) c2 rem hrne h1,
                ih rest.length (by omega) c2 rem hrne h2]
            | inr heq =>
              obtain ⟨hr, hc⟩ := heq
              subst hr
              subst hc
              rw [resolveLoop_stalled env c2 (s :: rest) hp hne m0,
                resolveLoop_stalled env c2 (s :: rest) hp hne rest.length]

/-- C10: the resolver always terminates within one pass per recorded
substitution. With a nonempty list it runs the loop with exactly that fuel,
giving the loop any more fuel cannot change the outcome, and every run either
returns a tree or raises an error, where a cycle error always carries the
entries of a nonempty remaining working set. -/
theorem claim_C10 :
    (∀ (env : Env) (c : Value) (subs : List Substitution), subs ≠ [] →
        resolveSubstitutions env c subs = resolveLoop env subs.length c subs) ∧
    (∀ (env : Env) (m : Nat) (c : Value) (subs : List Substitution), subs ≠ [] →
        subs.length ≤ m → resolveLoop env m c subs = resolveLoop env subs.length c subs) ∧
    (∀ (env : Env) (c : Value) (subs : List Substitution),
        (∃ t2, resolveSubstitutions env c subs = .ok t2) ∨
        (∃ e, resolveSubstitutions env c subs = .error e ∧
          ((∃ rem : List Substitution, rem ≠ [] ∧ e = .cycle (rem.map entryOf)) ∨
            ∀ es, e ≠ .cycle es))) := by
  refine ⟨?_, ?_, ?_⟩
  · intro env c subs hne
    unfold resolveSubstitutions
    rw [if_pos (by cases subs with | nil => exact absurd rfl hne | cons s r => simp)]
  · intro env m c subs hne hlen
    exact resolveLoop_stable env m c subs hne hlen
  · intro env c subs
    cases r : resolveSubstitutions env c subs with
    | ok t2 => exact Or.inl ⟨t2, rfl⟩
    | error e =>
      refine Or.inr ⟨e, rfl, ?_⟩
      cases e with
      | cycle es =>
        left
        cases subs with
        | nil => simp [resolveSubstitutions] at r
        | cons s rest =>
          unfold resolveSubstitutions at r
          rw [if_pos (by simp)] at r
          obtain ⟨rem, hrne, hes⟩ := resolveLoop_cycle_shape rest.length env c (s :: rest) es r
          exact ⟨rem, hrne, by rw [hes]⟩
      | cannotResolve v l co => exact Or.inr (fun es => by simp)
      | compositeEnv v t l co => exact Or.inr (fun es => by simp)
      | shape => exact Or.inr (fun es => by simp)
      | badState => exact Or.inr (fun es => by simp)

/-- Witness for C10: extra fuel on the direct cycle document changes nothing. -/
theorem claim_C10_witness :
    resolveSubstitutions envNone docCyc [subCycA, subCycB] =
      resolveLoop envNone 2 docCyc [subCycA, subCycB] ∧
    resolveLoop envNone 7 docCyc [subCycA, subCycB] =
      resolveLoop envNone 2 docCyc [subCycA, subCycB] :=
  ⟨claim_C10.1 envNone docCyc [subCycA, subCycB] (by simp),
    claim_C10.2.1 envNone 7 docCyc [subCycA, subCycB] (by simp) (by simp)⟩

/-- Witness for C8: the no op on a concrete one key tree. -/
theorem claim_C8_witness :
    resolveSubstitutions envNone (.vtree [("k", .vint 1)]) [] = .ok (.vtree [("k", .vint 1)]) ∧
    getPath (.vtree [("k", .vint 1)]) ["k"] = getPath (.vtree [("k", .vint 1)]) ["k"] :=
  ⟨(claim_C8 envNone (.vtree [("k", .vint 1)])).1,
    (claim_C8 envNone (.vtree [("k", .vint 1)])).2 (.vtree [("k", .vint 1)]) ["k"] rfl⟩

/-- C9: every successful match of the number token regex leaves a remainder
that starts, after optional spaces and tabs, with a delimiter or a line
comment, so a numeral followed directly by other characters is not a number:
on 3.14abc no candidate of the backtracking search survives the lookahead,
the number token fails, and the unquoted string alternative consumes 3.14abc
as one string token; the sanity numerals terminated by a newline and by a
spaced brace do match. -/
theorem claim_C9 :
    (∀ (s r : List Char), r ∈ numberRests s → delimLookB r = true) ∧
    numberRests ("3.14abc\n".toList) = [] ∧
    numberToken "3.14abc\n" = none ∧
    unquotedToken "3.14abc\n" = some ("3.14abc", "\n") ∧
    numberToken "3.14\n" = some "3.14" ∧
    numberToken (String.mk ['3', '.', '1', '4', ' ', '}']) = some "3.14" := by
  refine ⟨?_, rfl, rfl, rfl, rfl, rfl⟩
  intro s r h
  exact (List.mem_filter.mp h).2

/-- Witness for C9: the single surviving candidate of the numeral 5 before a
closing brace satisfies the delimiter lookahead. -/
theorem claim_C9_witness : delimLookB ['}'] = true :=
  claim_C9.1 ['5', '}'] ['}'] (by decide)

/-- Partial correctness of the resolver on alias free states: whenever the
raw tree is structurally good, every substitution token is covered by the
recorded working set, every recorded lookup is clean, and the environment
holds only concrete values, an ok outcome of resolution is a tree of scalar,
list and tree nodes only, with no pending node left anywhere. The clean
lookup check restricts this to states in which no lookup captures a
partially resolved subtree: the mutable original shares such subtrees by
reference and keeps resolving them in place, which this functional value
model does not represent. -/
theorem resolveSubstitutions_ok_noPending :
    ∀ (env : Env) (c : Value) (subs : List Substitution) (t2 : Value),
      c.goodValue = true → covB c subs = true → w3B c subs = true → EnvClean env →
      resolveSubstitutions env c subs = .ok t2 → t2.noPending = true := by
  intro env c subs t2 hg hcv hw3 henv h
  have hInv := checks_to_inv env c subs hg hcv hw3 henv
  cases subs with
  | nil =>
    have hc : c = t2 := by simpa [resolveSubstitutions] using h
    rw [← hc]
    obtain ⟨hg0, hcov0, -, -⟩ := hInv
    exact noPending_of_no_reachable c hg0 (covered_nil_no_reachable c hcov0)
  | cons s rest =>
    unfold resolveSubstitutions at h
    rw [if_pos (by simp)] at h
    exact loop_noPending env (s :: rest).length c (s :: rest) t2 hInv h

/-- The alias free partial correctness theorem evaluated on the forward
reference document: its resolved tree is free of pending nodes. -/
theorem resolveSubstitutions_ok_noPending_example :
    Value.noPending (.vtree [("a", .vint 5), ("b", .vint 5)]) = true :=
  resolveSubstitutions_ok_noPending envNone docAB [subAB]
    (.vtree [("a", .vint 5), ("b", .vint 5)])
    rfl rfl rfl (fun _ _ h => Option.noConfusion h) rfl

end Pyhocon
